import Mathlib

/-!
Verification of the RepoScribe VS Code extension core logic, shallowly
embedded from the TypeScript sources: the five-stage file-selection
pipeline (src/infrastructure/FileScanner.ts), configuration resolution
(src/domain/config/resolver.ts), the configuration cache
(src/application/ConfigurationService.ts), atomic output writing
(src/infrastructure/FileSystem.ts), file-tree construction
(src/domain/workspace/FileTree.ts), markdown rendering
(src/domain/markdown/MarkdownBuilder.ts), per-file content assembly
(src/application/GenerationCoordinator.ts) and the debounced trigger
model (src/application/WorkspaceWatcher.ts).

The gitignore-style pattern matcher embeds the semantics of the external
`ignore` npm package, v5.x as pinned by the code: a single pass is
last-match-wins with `!` negation (`_testOne`), a trailing `/` marks a
directory-only pattern, `**` crosses segment boundaries, and `ignores`
(method `_t`) tests every parent directory first — a path whose parent
directory is ignored stays ignored, so a file under an excluded directory
cannot be re-included.  The debounce model embeds the trailing-edge
semantics of the external `debounce-fn` package.  String comparison used
for sibling ordering models `localeCompare` as an ordinal total order on
code points.
-/

namespace RepoScribe

/-! ### Character-level string helpers (code-point lists) -/

/-- Split a character list on a separator character; mirrors the behaviour
of JavaScript `String.prototype.split` with a single-character separator
(an empty input yields one empty field). -/
def splitOnChar (c : Char) : List Char → List (List Char)
  | [] => [[]]
  | a :: as =>
    let r := splitOnChar c as
    if a = c then [] :: r
    else
      match r with
      | [] => [[a]]
      | s :: ss => (a :: s) :: ss

/-- Whether a string starts with the given character. -/
def strStarts (c : Char) (s : String) : Bool :=
  match s.data with
  | [] => false
  | a :: _ => a = c

/-- The string without its first character. -/
def strTailStr (s : String) : String := ⟨s.data.tail⟩

/-- Whether a character list ends with a slash. -/
def endsWithSlash (cs : List Char) : Bool :=
  match cs.reverse with
  | [] => false
  | a :: _ => a = '/'

/-- All suffixes of a list, longest first. -/
def suffixes {α : Type} : List α → List (List α)
  | [] => [[]]
  | a :: as => (a :: as) :: suffixes as

/-! ### Glob segment matching (the `ignore` package's pattern language) -/

/-- Match one glob segment against one path segment: `*` matches any
character run inside the segment, `?` matches one character, other
characters match literally. -/
def matchSeg : List Char → List Char → Bool
  | [], cs => cs.isEmpty
  | '*' :: ps, cs => (suffixes cs).any (matchSeg ps)
  | '?' :: ps, cs =>
    match cs with
    | [] => false
    | _ :: cs' => matchSeg ps cs'
  | p :: ps, cs =>
    match cs with
    | [] => false
    | c :: cs' => p = c && matchSeg ps cs'

/-- Match a list of glob segments against path segments.  A `**` segment
crosses directory boundaries (zero or more segments), except that a
trailing `**` requires at least one remaining segment, as in the `ignore`
package's compilation of a trailing `/**`. -/
def matchSegs : List (List Char) → List (List Char) → Bool
  | [], ss => ss.isEmpty
  | [['*', '*']], ss => !ss.isEmpty
  | ['*', '*'] :: ps, ss => (suffixes ss).any (matchSegs ps)
  | p :: ps, ss =>
    match ss with
    | [] => false
    | s :: ss' => matchSeg p s && matchSegs ps ss'

/-- Whether a single gitignore-style pattern matches a path given by its
slash-separated segments, with `isDir` marking a directory path (the
`ignore` engine tests parent directories as `"dir/"`, with a trailing
slash).  The compiled regexes of `ignore` v5 end in a lookahead that
tolerates one trailing slash, so a non-directory pattern matches a
directory path on the same segments as it would a file path, while a
pattern with a trailing slash compiles to a regex requiring that slash at
the very end and hence matches only directory paths (files inside such a
directory are ignored through the parent-directory rule of `ignores`, not
by this single-pattern test).  A pattern whose only slash, if any, is the
trailing one may match at any depth (implicit leading `**/`). -/
def gmatchCore (pattern : String) (ssegs : List (List Char))
    (isDir : Bool) : Bool :=
  let pd := pattern.data
  let isDirPat := endsWithSlash pd
  let core := if isDirPat then pd.dropLast else pd
  let psegs := splitOnChar '/' core
  let psegs' := if psegs.length > 1 then psegs else ['*', '*'] :: psegs
  if isDirPat && !isDir then false
  else matchSegs psegs' ssegs

/-- Whether a single pattern matches a relative file path. -/
def gmatch (pattern path : String) : Bool :=
  gmatchCore pattern (splitOnChar '/' path.data) false

/-! ### The `ignore` rule engine -/

/-- One compiled ignore rule: a pattern and whether it was negated
with a leading exclamation mark. -/
structure IgnoreRule where
  pattern : String
  negated : Bool
deriving DecidableEq

/-- Compile one pattern string as the `ignore` package's `add` does:
a leading exclamation mark marks a negated (re-include) rule. -/
def compilePattern (s : String) : IgnoreRule :=
  if strStarts '!' s then ⟨strTailStr s, true⟩ else ⟨s, false⟩

/-- Compile a list of pattern strings. -/
def compileList (ps : List String) : List IgnoreRule := ps.map compilePattern

/-- Non-blank, non-comment lines of a gitignore file. -/
def gitignoreLines (content : String) : List String :=
  ((splitOnChar '\n' content.data).map (fun cs => (⟨cs⟩ : String))).filter
    (fun l => !(l = "") && !(strStarts '#' l))

/-- Compile the text of a .gitignore file into a ruleset. -/
def compileGitignoreText (content : String) : List IgnoreRule :=
  compileList (gitignoreLines content)

/-- One rule-list pass over a single tested file path (the `ignore`
package's `_testOne`): the last matching rule wins, and a path matched by
no rule is not ignored. -/
def ignoresB (rules : List IgnoreRule) (p : String) : Bool :=
  rules.foldl (fun acc r => if gmatch r.pattern p then !r.negated else acc) false

/-- `_testOne` over a directory path given as segments (tested with a
trailing slash by the engine). -/
def testOneDir (rules : List IgnoreRule) (dsegs : List (List Char)) : Bool :=
  rules.foldl
    (fun acc r => if gmatchCore r.pattern dsegs true then !r.negated else acc)
    false

/-- Whether a ruleset ignores a path: the `ignore` v5 `ignores` (method
`_t`).  Every proper parent directory is tested first, and a path with an
ignored parent directory is ignored regardless of negation rules — it is
not possible to re-include a file if a parent directory of it is
excluded; otherwise the path itself is tested with the last-match-wins
pass.  Unfolding the parent recursion, the path is ignored exactly when
some proper directory prefix passes `_testOne` or the path itself
does. -/
def ignoresV5 (rules : List IgnoreRule) (p : String) : Bool :=
  let ssegs := splitOnChar '/' p.data
  ((List.range (ssegs.length - 1)).map (fun k => ssegs.take (k + 1))).any
    (fun ds => testOneDir rules ds)
    || ignoresB rules p

/-- The `ignore` package's `filter`: keep the paths the ruleset does not
ignore. -/
def igFilter (rules : List IgnoreRule) (files : List String) : List String :=
  files.filter (fun f => !(ignoresV5 rules f))

/-! ### The built-in default excludes (BASE_CONFIG.exclude of
src/domain/config/types.ts) -/

/-- The built-in default exclude patterns shipped in `BASE_CONFIG`. -/
def baseExcludeDefaults : List String :=
  [ "**/node_modules/**", "**/.git/**", "**/.vscode/**", "**/.idea/**",
    "**/dist/**", "**/build/**", "**/coverage/**", "**/*.log",
    "**/.history/**",
    "**/__pycache__/**", "**/*.pyc", "**/*.pyo", "**/*.pyd",
    "**/.pytest_cache/**", "**/venv/**", "**/.venv/**", "**/env/**",
    "**/.env", "**/instance/**", "**/*.egg-info/**",
    "**/*cache/**", "**/.cache/**", "**/*.db", "**/*.db-wal",
    "**/*.db-shm", "**/*.sqlitedb", "**/*.tmp", "**/*.db-journal",
    "**/*.class", "**/*.jar", "**/*.war", "**/*.ear", "**/*.dll",
    "**/*.exe", "**/*.o", "**/*.so", "**/*.a",
    "**/*.zip", "**/*.tar", "**/*.tar.gz", "**/*.rar", "**/*.7z",
    "**/*.bz2",
    "**/*.pdf", "**/*.doc", "**/*.docx", "**/*.xls", "**/*.xlsx",
    "**/*.ppt", "**/*.pptx",
    "**/*.png", "**/*.jpg", "**/*.jpeg", "**/*.gif", "**/*.svg",
    "**/*.ico", "**/*.webp", "**/*.mov", "**/*.mp4", "**/*.avi",
    "**/*.webm", "**/*.mp3", "**/*.wav", "**/*.flac", "**/*.psd",
    "**/*.ai", "**/*.eps",
    "**/*.woff", "**/*.woff2", "**/*.eot", "**/*.ttf", "**/*.otf",
    "**/*.iso", "**/*.vmdk", "**/*.vdi",
    "**/package-lock.json", "**/pnpm-lock.yaml", "**/yarn.lock",
    "**/composer.lock", "**/uv.lock" ]

/-! ### FileScanner.scan (src/infrastructure/FileScanner.ts)

The five filtering stages over the discovered relative file list.  The
caller (GenerationCoordinator) passes `BASE_CONFIG` as the base config and
the raw partial user config, so stage 3 uses the built-in excludes, stage 4
the user's include patterns, and stage 5 only the user's exclude
patterns. -/

/-- Stage 4 of `FileScanner.scan`: when user include patterns are present
and non-empty, re-admit, among the gitignore survivors that the base
excludes removed, those matching an include pattern (built as the ruleset
`**/*` followed by negated include patterns). -/
def stageInclude (userInclude : Option (List String))
    (filesAfterGitignore filesAfterBaseExclude : List String) : List String :=
  match userInclude with
  | some includePats =>
    if includePats.length > 0 then
      let filesExcludedByBase :=
        filesAfterGitignore.filter (fun f => !(filesAfterBaseExclude.contains f))
      let includeRules :=
        compileList ("**/*" :: includePats.map (fun p => "!" ++ p))
      let filesToUnexclude := igFilter includeRules filesExcludedByBase
      filesAfterBaseExclude ++ filesToUnexclude
    else filesAfterBaseExclude
  | none => filesAfterBaseExclude

/-- Stage 5 of `FileScanner.scan`: apply the user-specific exclude rules
as the final filter, when present and non-empty. -/
def stageUserExclude (userExclude : Option (List String))
    (filesAfterInclude : List String) : List String :=
  match userExclude with
  | some excludePats =>
    if excludePats.length > 0 then
      igFilter (compileList excludePats) filesAfterInclude
    else filesAfterInclude
  | none => filesAfterInclude

/-- The filtering pipeline of `FileScanner.scan`, over the discovered
relative file paths (stage 1's filesystem walk provides the input list). -/
def scan (allRelativeFiles : List String) (baseExclude : List String)
    (userInclude : Option (List String)) (userExclude : Option (List String))
    (gitignoreContent : String) : List String :=
  let filesAfterGitignore :=
    igFilter (compileGitignoreText gitignoreContent) allRelativeFiles
  let filesAfterBaseExclude :=
    igFilter (compileList baseExclude) filesAfterGitignore
  stageUserExclude userExclude
    (stageInclude userInclude filesAfterGitignore filesAfterBaseExclude)

/-! ### Selection-pipeline lemmas -/

/-- Membership in an ignore-filtered list implies membership in the input
and non-ignored status. -/
theorem mem_igFilter {rules : List IgnoreRule} {files : List String} {p : String}
    (h : p ∈ igFilter rules files) : p ∈ files ∧ ignoresV5 rules p = false := by
  unfold igFilter at h
  rw [List.mem_filter] at h
  exact ⟨h.1, by simpa using h.2⟩

/-- The user-exclude rules applied in stage 5; an absent or empty user
exclude list compiles to the empty ruleset. -/
def userExcludeRules (uExc : Option (List String)) : List IgnoreRule :=
  compileList (uExc.getD [])

/-- Stage 5 only removes paths. -/
theorem mem_of_mem_stageUserExclude {uExc : Option (List String)}
    {lst : List String} {p : String} (h : p ∈ stageUserExclude uExc lst) :
    p ∈ lst := by
  unfold stageUserExclude at h
  split at h
  · split at h
    · exact (mem_igFilter h).1
    · exact h
  · exact h

/-- The empty ruleset ignores nothing. -/
theorem ignoresV5_nil (p : String) : ignoresV5 [] p = false := by
  simp [ignoresV5, testOneDir, ignoresB]

/-- Every stage-5 survivor fails the user-exclude ruleset. -/
theorem stageUserExclude_not_ignored {uExc : Option (List String)}
    {lst : List String} {p : String} (h : p ∈ stageUserExclude uExc lst) :
    ignoresV5 (userExcludeRules uExc) p = false := by
  cases uExc with
  | none => exact ignoresV5_nil p
  | some l =>
    cases l with
    | nil => exact ignoresV5_nil p
    | cons a t =>
      have hpos : (a :: t).length > 0 := by simp
      simp only [stageUserExclude, if_pos hpos] at h
      simpa [userExcludeRules] using (mem_igFilter h).2

/-- Every stage-4 survivor comes from the base-exclude survivors or was
re-admitted from the gitignore survivors. -/
theorem mem_of_mem_stageInclude {uInc : Option (List String)}
    {A B : List String} {p : String} (h : p ∈ stageInclude uInc A B) :
    p ∈ B ∨ p ∈ A := by
  unfold stageInclude at h
  split at h
  · split at h
    · rcases List.mem_append.mp h with h1 | h1
      · exact Or.inl h1
      · exact Or.inr (List.mem_filter.mp (mem_igFilter h1).1).1
    · exact Or.inl h
  · exact Or.inl h

/-- Every member of the scan result survives the gitignore stage. -/
theorem mem_scan_gitignore_surviving {files : List String} {baseEx : List String}
    {uInc uExc : Option (List String)} {git : String} {p : String}
    (h : p ∈ scan files baseEx uInc uExc git) :
    p ∈ igFilter (compileGitignoreText git) files := by
  unfold scan at h
  rcases mem_of_mem_stageInclude (mem_of_mem_stageUserExclude h) with h1 | h1
  · exact (mem_igFilter h1).1
  · exact h1

/-- C3: for every input file list, gitignore text and configuration, every
path matched by the compiled gitignore ruleset is absent from the final set
returned by `FileScanner.scan`, regardless of include patterns: the
include stage only re-admits paths taken from the gitignore-surviving
list. -/
theorem c3_gitignore_precedence (files : List String) (baseEx : List String)
    (uInc uExc : Option (List String)) (git : String) (p : String)
    (hg : ignoresV5 (compileGitignoreText git) p = true) :
    p ∉ scan files baseEx uInc uExc git := by
  intro hmem
  have h := mem_igFilter (mem_scan_gitignore_surviving hmem)
  rw [hg] at h
  exact Bool.noConfusion h.2

/-- C3 witness: with `.gitignore` containing `dist/` and an include
pattern naming `dist/bundle.js`, the gitignored path (its parent
directory `dist/` is ignored) stays out of the final set
(spec scenario 1). -/
theorem c3_gitignore_precedence_witness :
    ignoresV5 (compileGitignoreText "dist/") "dist/bundle.js" = true ∧
    "dist/bundle.js" ∉ scan ["src/a.ts", "dist/bundle.js"] baseExcludeDefaults
      (some ["dist/bundle.js"]) (some []) "dist/" :=
  ⟨by decide,
   c3_gitignore_precedence ["src/a.ts", "dist/bundle.js"] baseExcludeDefaults
     (some ["dist/bundle.js"]) (some []) "dist/" "dist/bundle.js" (by decide)⟩

/-- C1 (amended): the fifth filtering stage removes from the stage-4 result
every path matching the user exclude list (not the full built-in + user
list); in particular a path re-admitted by an include pattern in stage 4
that also matches a user exclude pattern is absent from the final returned
set. -/
theorem c1_user_exclude_final_veto (files : List String) (baseEx : List String)
    (uInc uExc : Option (List String)) (git : String) (p : String)
    (hx : ignoresV5 (userExcludeRules uExc) p = true) :
    p ∉ scan files baseEx uInc uExc git := by
  intro hmem
  unfold scan at hmem
  have h := stageUserExclude_not_ignored hmem
  rw [hx] at h
  exact Bool.noConfusion h

/-- C1 witness: the top-level lockfile is base-excluded, re-admitted at
stage 4 by the user include naming it (its one-segment path has no parent
directory, so the engine's parent rule cannot block the re-inclusion),
and then vetoed at stage 5 by the user exclude naming it; without the
user exclude it is present in the final set. -/
theorem c1_user_exclude_final_veto_witness :
    ignoresV5 (userExcludeRules (some ["pnpm-lock.yaml"])) "pnpm-lock.yaml" = true ∧
    "pnpm-lock.yaml" ∈ scan ["src/a.ts", "pnpm-lock.yaml"] baseExcludeDefaults
      (some ["pnpm-lock.yaml"]) none "" ∧
    "pnpm-lock.yaml" ∉ scan ["src/a.ts", "pnpm-lock.yaml"] baseExcludeDefaults
      (some ["pnpm-lock.yaml"]) (some ["pnpm-lock.yaml"]) "" :=
  ⟨by decide, by decide,
   c1_user_exclude_final_veto ["src/a.ts", "pnpm-lock.yaml"] baseExcludeDefaults
     (some ["pnpm-lock.yaml"]) (some ["pnpm-lock.yaml"]) "" "pnpm-lock.yaml"
     (by decide)⟩

/-- C1 counterexample: stage 5 does not apply the full (built-in + user)
exclude list.  With the non-empty user exclude list `**/*.log`, the
top-level path `pnpm-lock.yaml` matches the full exclude list (via the
built-in `**/pnpm-lock.yaml`) and is re-admitted at stage 4 by the user
include naming it, yet it is present in the final scan result — so the
claim that stage 5 removes every path matching the full exclude list is
false. -/
theorem c1_counterexample :
    ignoresV5 (compileList (baseExcludeDefaults ++ ["**/*.log"]))
      "pnpm-lock.yaml" = true ∧
    "pnpm-lock.yaml" ∈ scan ["src/a.ts", "pnpm-lock.yaml"] baseExcludeDefaults
      (some ["pnpm-lock.yaml"]) (some ["**/*.log"]) "" := by
  constructor
  · decide
  · decide

/-- **C2** (code bug).  In the spec's second scenario — universe
`{src/a.ts, dist/bundle.js}`, empty gitignore, built-in default excludes,
user include `dist/bundle.js`, empty user exclude — the pipeline returns
`{src/a.ts}` only, not the spec's expected `{src/a.ts, dist/bundle.js}`:
stage 4's re-include filter `['**/*', '!dist/bundle.js']` leaves
`dist/bundle.js` ignored, because its parent directory `dist/` matches
`'**/*'` and the `ignore` engine never re-includes a file under an
ignored directory, defeating the stage's documented intent of adding
back base-excluded files that match a user include pattern. -/
theorem c2_nested_include_not_readmitted :
    scan ["src/a.ts", "dist/bundle.js"] baseExcludeDefaults
      (some ["dist/bundle.js"]) (some []) "" = ["src/a.ts"] ∧
    scan ["src/a.ts", "dist/bundle.js"] baseExcludeDefaults
      (some ["dist/bundle.js"]) (some []) "" ≠ ["src/a.ts", "dist/bundle.js"] := by
  constructor
  · decide
  · decide

/-! ### Configuration model (src/domain/config/types.ts) -/

/-- The resolved RepoScribe configuration record. -/
structure RepoScribeConfig where
  outputFile : String
  includePatterns : List String
  exclude : List String
  languageMap : List (String × String)
  regenerationDelay : Nat
  maxFileSizeKb : Nat
deriving DecidableEq

/-- A partial user configuration (`Partial<RepoScribeConfig>`): every
field may be absent. -/
structure UserConfig where
  outputFile : Option String
  includePatterns : Option (List String)
  exclude : Option (List String)
  languageMap : Option (List (String × String))
  regenerationDelay : Option Nat
  maxFileSizeKb : Option Nat
deriving DecidableEq

/-- The empty user configuration (the `{}` object). -/
def emptyUserConfig : UserConfig := ⟨none, none, none, none, none, none⟩

/-! ### resolveConfig (src/domain/config/resolver.ts) -/

/-- JavaScript object-spread merge of two key-value maps: base keys keep
their order with user values winning on collision, then user-only keys
follow. -/
def mergeLanguageMap (b u : List (String × String)) :
    List (String × String) :=
  b.map (fun e => (e.1, (u.lookup e.1).getD e.2)) ++
    u.filter (fun e => (b.lookup e.1).isNone)

/-- Pure merge of a user-provided partial configuration over a base
configuration: scalars are user-if-present, `exclude` is the base list
concatenated with the user list, `include` is the user list if the key is
present (the `??` operator), and `languageMap` is a shallow merge with
user entries winning. -/
def resolveConfig (base : RepoScribeConfig) (user : Option UserConfig) :
    RepoScribeConfig :=
  match user with
  | none => base
  | some u =>
    ⟨u.outputFile.getD base.outputFile,
     u.includePatterns.getD base.includePatterns,
     base.exclude ++ u.exclude.getD [],
     mergeLanguageMap base.languageMap (u.languageMap.getD []),
     u.regenerationDelay.getD base.regenerationDelay,
     u.maxFileSizeKb.getD base.maxFileSizeKb⟩

/-- C7 (amended): `resolveConfig` returns include patterns equal to the
user's include list whenever that key is present — including a
present-but-empty list, which yields the empty list rather than the base
list (replacement, not union) — and equal to the base include list only
when the key is absent or there is no user config at all. -/
theorem c7_include_replacement (base : RepoScribeConfig) (u : UserConfig) :
    (∀ l, u.includePatterns = some l → (resolveConfig base (some u)).includePatterns = l) ∧
    (u.includePatterns = none → (resolveConfig base (some u)).includePatterns = base.includePatterns) ∧
    (resolveConfig base none).includePatterns = base.includePatterns := by
  refine ⟨?_, ?_, rfl⟩
  · intro l hl
    simp [resolveConfig, hl]
  · intro hl
    simp [resolveConfig, hl]

/-- C7 witness: the spec's own merge example — a user include `["y"]`
replaces the base include list. -/
theorem c7_include_replacement_witness :
    (resolveConfig ⟨"o", ["x"], [], [], 0, 0⟩
      (some ⟨none, some ["y"], none, none, none, none⟩)).includePatterns = ["y"] :=
  (c7_include_replacement ⟨"o", ["x"], [], [], 0, 0⟩
    ⟨none, some ["y"], none, none, none, none⟩).1 ["y"] rfl

/-- C7 counterexample: a present-but-empty user include list does not
leave the base include list in effect — the code's `??` keeps the empty
list, so the resolved include list differs from the base's. -/
theorem c7_counterexample :
    (resolveConfig ⟨"o", ["x"], [], [], 0, 0⟩
        (some ⟨none, some [], none, none, none, none⟩)).includePatterns = [] ∧
    (resolveConfig ⟨"o", ["x"], [], [], 0, 0⟩
        (some ⟨none, some [], none, none, none, none⟩)).includePatterns ≠
      (⟨"o", ["x"], [], [], 0, 0⟩ : RepoScribeConfig).includePatterns := by
  constructor
  · rfl
  · decide

/-! ### Per-file content assembly
(src/application/GenerationCoordinator.ts, step 5 of generate) -/

/-- The fixed placeholder stored when a file exceeds the size limit. -/
def omittedMessage (kb : Nat) : String :=
  "[File content omitted: Exceeds " ++ toString kb ++ " KB size limit]"

/-- The fixed placeholder stored when stat or read fails. -/
def readErrorMessage (e : String) : String :=
  "[Error reading file: " ++ e ++ "]"

/-- The per-file step of content assembly: stat the file; if the limit is
positive and the size strictly exceeds `maxFileSizeKb * 1024` bytes, store
the omitted placeholder without reading; otherwise read, storing an error
placeholder if the read fails.  The boolean records whether a read was
attempted. -/
def fileContentEntry (maxFileSizeKb : Nat) (statResult : Except String Nat)
    (readResult : Except String String) : String × Bool :=
  match statResult with
  | Except.error e => (readErrorMessage e, false)
  | Except.ok size =>
    if maxFileSizeKb > 0 ∧ size > maxFileSizeKb * 1024 then
      (omittedMessage maxFileSizeKb, false)
    else
      match readResult with
      | Except.ok content => (content, true)
      | Except.error e => (readErrorMessage e, true)

/-- C6: when the limit is positive and the stat'ed size strictly exceeds
it, the entry is the omitted placeholder and no read happens; a file whose
size equals the limit exactly is read and stored verbatim; a limit of `0`
means unlimited. -/
theorem c6_size_limit (kb size : Nat) (c : String) (r : Except String String) :
    (0 < kb → kb * 1024 < size →
      fileContentEntry kb (Except.ok size) r = (omittedMessage kb, false)) ∧
    fileContentEntry kb (Except.ok (kb * 1024)) (Except.ok c) = (c, true) ∧
    fileContentEntry 0 (Except.ok size) (Except.ok c) = (c, true) := by
  refine ⟨?_, ?_, ?_⟩
  · intro h1 h2
    simp [fileContentEntry, h1, h2]
  · have : ¬(kb > 0 ∧ kb * 1024 > kb * 1024) := by
      rintro ⟨-, h⟩
      exact lt_irrefl _ h
    simp [fileContentEntry, this]
  · have : ¬((0 : Nat) > 0 ∧ size > 0 * 1024) := by
      rintro ⟨h, -⟩
      exact lt_irrefl _ h
    simp [fileContentEntry, this]

/-- C6 witness: with a 1 KB limit, a 1025-byte file is omitted unread, a
1024-byte file is read verbatim, and with limit 0 any size is read. -/
theorem c6_size_limit_witness :
    fileContentEntry 1 (Except.ok 1025) (Except.ok "x") = (omittedMessage 1, false) ∧
    fileContentEntry 1 (Except.ok 1024) (Except.ok "x") = ("x", true) ∧
    fileContentEntry 0 (Except.ok 99999) (Except.ok "x") = ("x", true) :=
  ⟨(c6_size_limit 1 1025 "x" (Except.ok "x")).1 (by decide) (by decide),
   (c6_size_limit 1 1025 "x" (Except.ok "x")).2.1,
   (c6_size_limit 0 99999 "x" (Except.ok "x")).2.2⟩

/-! ### ConfigurationService (src/application/ConfigurationService.ts) -/

/-- The cached configuration context: the resolved configuration together
with the raw user configuration. -/
structure ConfigContext where
  resolvedConfig : RepoScribeConfig
  userConfig : UserConfig
deriving DecidableEq

/-- One call of `ConfigurationService.getConfigContext`: returns the
context, the new cache state, whether a load of the user config source was
attempted, and the log lines emitted.  A cached context is returned
directly; otherwise the source is loaded, a load or parse failure is
logged and recovered by continuing with the empty user config (so the
function is total and never propagates the failure), and the resulting
context — fallback included — is cached. -/
def getConfigContext (base : RepoScribeConfig)
    (loadResult : Except String UserConfig) (cached : Option ConfigContext) :
    ConfigContext × Option ConfigContext × Bool × List String :=
  match cached with
  | some ctx => (ctx, some ctx, false, ["Returning cached configuration context."])
  | none =>
    match loadResult with
    | Except.ok u =>
      let ctx : ConfigContext := ⟨resolveConfig base (some u), u⟩
      (ctx, some ctx, true, ["Loaded user config."])
    | Except.error e =>
      let ctx : ConfigContext :=
        ⟨resolveConfig base (some emptyUserConfig), emptyUserConfig⟩
      (ctx, some ctx, true,
       ["Failed to load or parse .reposcribe.config.js: " ++ e])

/-- C8: on a malformed user configuration source the service logs the
error, resolves against the empty user config, caches that fallback, and
a subsequent call returns the cached fallback without re-attempting the
failing load; the call is total (never throws). -/
theorem c8_malformed_config_fallback (base : RepoScribeConfig) (e : String)
    (load2 : Except String UserConfig) :
    (getConfigContext base (Except.error e) none).1.resolvedConfig =
      resolveConfig base (some emptyUserConfig) ∧
    (getConfigContext base (Except.error e) none).2.1 =
      some (getConfigContext base (Except.error e) none).1 ∧
    (getConfigContext base (Except.error e) none).2.2.1 = true ∧
    ("Failed to load or parse .reposcribe.config.js: " ++ e) ∈
      (getConfigContext base (Except.error e) none).2.2.2 ∧
    getConfigContext base load2 (getConfigContext base (Except.error e) none).2.1 =
      ((getConfigContext base (Except.error e) none).1,
       (getConfigContext base (Except.error e) none).2.1, false,
       ["Returning cached configuration context."]) := by
  refine ⟨rfl, rfl, rfl, ?_, rfl⟩
  simp [getConfigContext]

/-! ### FileSystem.atomicWrite (src/infrastructure/FileSystem.ts)

The filesystem is modelled as a map from paths to contents; `fse.outputFile`
and `fse.move` with overwrite become map updates, and the boolean
parameters choose whether each of the two steps succeeds. -/

/-- Point update of a path-to-content map. -/
def fsWrite (m : String → Option String) (p v : String) :
    String → Option String :=
  fun q => if q = p then some v else m q

/-- Removal of a path from a path-to-content map. -/
def fsErase (m : String → Option String) (p : String) :
    String → Option String :=
  fun q => if q = p then none else m q

/-- The temporary path used by `atomicWrite`
(`filePath + "." + Date.now() + ".tmp"`, with the timestamp a parameter). -/
def tmpPathOf (filePath ts : String) : String :=
  filePath ++ "." ++ ts ++ ".tmp"

/-- `FileSystem.atomicWrite`: write the content to the temporary path,
then rename it over the target with overwrite; on failure of either step
the catch block removes the temporary file and re-throws. -/
def atomicWrite (m : String → Option String) (filePath ts content : String)
    (writeOk moveOk : Bool) : Except String Unit × (String → Option String) :=
  let tmpPath := tmpPathOf filePath ts
  if writeOk then
    let m1 := fsWrite m tmpPath content
    if moveOk then
      (Except.ok (), fsWrite (fsErase m1 tmpPath) filePath content)
    else
      (Except.error "move failed", fsErase m1 tmpPath)
  else
    (Except.error "write failed", fsErase m tmpPath)

/-- The temporary path is never the target path. -/
theorem tmpPathOf_ne (filePath ts : String) : tmpPathOf filePath ts ≠ filePath := by
  intro h
  have hl := congrArg String.length h
  simp only [tmpPathOf, String.length_append] at hl
  have h1 : ("." : String).length = 1 := rfl
  have h4 : (".tmp" : String).length = 4 := rfl
  rw [h1, h4] at hl
  omega

/-- C9: on success the target holds the new content and the temporary
file is gone; if the write or the rename fails, the error is propagated,
the temporary file is removed, and the target's previous content is
untouched. -/
theorem c9_atomic_write (m : String → Option String)
    (filePath ts content : String) (writeOk moveOk : Bool) :
    (writeOk = true → moveOk = true →
      (atomicWrite m filePath ts content writeOk moveOk).1 = Except.ok () ∧
      (atomicWrite m filePath ts content writeOk moveOk).2 filePath = some content ∧
      (atomicWrite m filePath ts content writeOk moveOk).2 (tmpPathOf filePath ts) = none) ∧
    (writeOk = false ∨ moveOk = false →
      (∃ e, (atomicWrite m filePath ts content writeOk moveOk).1 = Except.error e) ∧
      (atomicWrite m filePath ts content writeOk moveOk).2 filePath = m filePath ∧
      (atomicWrite m filePath ts content writeOk moveOk).2 (tmpPathOf filePath ts) = none) := by
  have hne : ¬(filePath = tmpPathOf filePath ts) :=
    fun h => tmpPathOf_ne filePath ts h.symm
  have hne' : ¬(tmpPathOf filePath ts = filePath) := tmpPathOf_ne filePath ts
  constructor
  · intro hw hm
    subst hw; subst hm
    refine ⟨rfl, ?_, ?_⟩
    · simp [atomicWrite, fsWrite, fsErase]
    · simp [atomicWrite, fsWrite, fsErase, hne']
  · intro hfail
    cases writeOk with
    | false =>
      refine ⟨⟨"write failed", rfl⟩, ?_, ?_⟩
      · simp [atomicWrite, fsErase, hne]
      · simp [atomicWrite, fsErase]
    | true =>
      cases moveOk with
      | false =>
        refine ⟨⟨"move failed", rfl⟩, ?_, ?_⟩
        · simp [atomicWrite, fsWrite, fsErase, hne]
        · simp [atomicWrite, fsWrite, fsErase]
      | true =>
        rcases hfail with h | h
        · exact Bool.noConfusion h
        · exact Bool.noConfusion h

/-- C9 witness: a failed rename leaves the previous output intact and no
temporary file behind, and the error surfaces. -/
theorem c9_atomic_write_witness :
    (∃ e, (atomicWrite (fun q => if q = "out.md" then some "old" else none)
        "out.md" "1" "new" true false).1 = Except.error e) ∧
    (atomicWrite (fun q => if q = "out.md" then some "old" else none)
        "out.md" "1" "new" true false).2 "out.md" = some "old" ∧
    (atomicWrite (fun q => if q = "out.md" then some "old" else none)
        "out.md" "1" "new" true false).2 (tmpPathOf "out.md" "1") = none := by
  have h := (c9_atomic_write (fun q => if q = "out.md" then some "old" else none)
    "out.md" "1" "new" true false).2 (Or.inr rfl)
  exact ⟨h.1, by rw [h.2.1]; decide, h.2.2⟩

/-! ### Debounced trigger coordination
(src/application/WorkspaceWatcher.ts + src/application/GenerationCoordinator.ts)

`WorkspaceWatcher.resetWatchers` wires surviving general events into
`debounceFn(() => coordinator.generate(), wait = regenerationDelay)`
(trailing-edge debounce from the external `debounce-fn` package), and
`GenerationCoordinator.generate` contains no in-flight guard: every
debounce expiry starts a pipeline execution immediately.  Time is modelled
discretely; a trigger burst is a list of trigger instants. -/

/-- Whether another trigger arrives after `t` but within `t + wait`
(which would reset the trailing-edge debounce timer started by `t`). -/
def laterWithinWindow (wait t : Nat) (ts : List Nat) : Bool :=
  ts.any (fun u => t < u && u ≤ t + wait)

/-- The instants at which the debounced `generate` fires for a list of
trigger instants: the timer started by a trigger expires `wait` later
unless a further trigger arrives inside its window. -/
def debounceFires (wait : Nat) (ts : List Nat) : List Nat :=
  (ts.filter (fun t => !(laterWithinWindow wait t ts))).map (fun t => t + wait)

/-- The pipeline-execution start instants: the already in-flight run plus
every debounce expiry — `generate` has no guard deferring or dropping
them. -/
def runStarts (inflightStart wait : Nat) (ts : List Nat) : List Nat :=
  inflightStart :: debounceFires wait ts

/-- Whether some later run starts before the first run (of the given
duration) has finished. -/
def overlapsWithFirst (dur : Nat) : List Nat → Bool
  | [] => false
  | s :: rest => rest.any (fun u => u < s + dur)

/-- A burst: a strictly increasing list of trigger instants in which each
trigger falls inside the debounce window opened by its predecessor. -/
inductive Burst (wait : Nat) : List Nat → Prop
  | single (t : Nat) : Burst wait [t]
  | chain (t t' : Nat) (ts : List Nat) (h1 : t < t') (h2 : t' ≤ t + wait)
      (h3 : Burst wait (t' :: ts)) : Burst wait (t :: t' :: ts)

/-- In a burst, the head strictly precedes every later trigger. -/
theorem burst_head_lt {wait t : Nat} {ts : List Nat}
    (h : Burst wait (t :: ts)) : ∀ x ∈ ts, t < x := by
  generalize hL : t :: ts = L at h
  induction h generalizing t ts with
  | single u =>
    cases hL
    simp
  | chain u u' us h1 h2 h3 ih =>
    cases hL
    intro x hx
    rcases List.mem_cons.mp hx with rfl | hx
    · exact h1
    · exact h1.trans (ih rfl x hx)

/-- C4 (amended): all triggers of one debounce burst coalesce into exactly
one debounced `generate` invocation, so an in-flight run plus a burst of
triggers — three, or any number — yields exactly 2 pipeline executions,
never 3 and never 0. -/
theorem c4_single_catchup (inflightStart wait : Nat) (ts : List Nat)
    (hb : Burst wait ts) :
    (debounceFires wait ts).length = 1 ∧
    (runStarts inflightStart wait ts).length = 2 := by
  have key : ∀ l, Burst wait l → (debounceFires wait l).length = 1 := by
    intro l hl
    induction hl with
    | single t =>
      simp [debounceFires, laterWithinWindow]
    | chain t t' us h1 h2 h3 ih =>
      have hlt := burst_head_lt (Burst.chain t t' us h1 h2 h3)
      have hdrop : laterWithinWindow wait t (t :: t' :: us) = true := by
        simp [laterWithinWindow, List.any_cons]
        exact Or.inl ⟨h1, h2⟩
      have hsame : ∀ x ∈ t' :: us,
          (!(laterWithinWindow wait x (t :: t' :: us))) =
          (!(laterWithinWindow wait x (t' :: us))) := by
        intro x hx
        have hxt : ¬(x < t) := by
          have := hlt x hx
          omega
        simp [laterWithinWindow, List.any_cons, hxt]
      calc (debounceFires wait (t :: t' :: us)).length
          = ((t' :: us).filter
              (fun x => !(laterWithinWindow wait x (t' :: us)))).length := by
            simp [debounceFires, List.filter_cons, hdrop, List.filter_congr hsame]
        _ = 1 := by
            simpa [debounceFires] using ih
  have h1 := key ts hb
  exact ⟨h1, by simp [runStarts, h1]⟩

/-- C4 witness: a burst of three triggers one time-unit apart with a
5-unit debounce window yields one catch-up: 2 executions in total. -/
theorem c4_single_catchup_witness :
    (debounceFires 5 [1, 2, 3]).length = 1 ∧
    (runStarts 0 5 [1, 2, 3]).length = 2 :=
  c4_single_catchup 0 5 [1, 2, 3]
    (Burst.chain 1 2 [3] (by decide) (by decide)
      (Burst.chain 2 3 [] (by decide) (by decide) (Burst.single 3)))

/-- C4 counterexample: nothing defers the catch-up past the end of the
in-flight run.  With an in-flight run starting at 0 and lasting 100, and
triggers at 1, 2, 3 inside one 10-unit debounce window, the single
catch-up fires at 13 — while the first run is still executing — so the
claim that the additional run starts only after the current one finishes
(and that two runs never execute or write concurrently) is false. -/
theorem c4_counterexample :
    (runStarts 0 10 [1, 2, 3]).length = 2 ∧
    debounceFires 10 [1, 2, 3] = [13] ∧
    overlapsWithFirst 100 (runStarts 0 10 [1, 2, 3]) = true := by
  refine ⟨?_, ?_, ?_⟩ <;> decide

/-! ### File tree construction (src/domain/workspace/FileTree.ts)

`buildFileTree` inserts each path's slash-separated segments into a tree
of `FileNode`s, creating missing nodes at the end of the sibling list
(the last segment as a file, intermediate segments as directories), then
sorts every directory's children: directories before files, then by name.
`localeCompare` is modelled as the ordinal code-point order `lexLe`. -/

/-- The kind of a tree node. -/
inductive NodeType where
  | file
  | directory
deriving DecidableEq

/-- A node of the project tree. -/
structure FileNode where
  name : String
  path : String
  type : NodeType
  children : List FileNode

/-- A node's children are smaller than the node. -/
theorem sizeOf_children_lt (c : FileNode) : sizeOf c.children < sizeOf c := by
  cases c with
  | mk n p t cs => simp

/-- The `currentPath` accumulator step of `buildFileTree`'s insertion
loop (the empty string is falsy in the source's ternary). -/
def mkChildPath (cur part : String) : String :=
  if cur = "" then part else cur ++ "/" ++ part

/-- Replace the first child carrying the given name. -/
def replaceFirstNamed (nm : String) (newNode : FileNode) :
    List FileNode → List FileNode
  | [] => []
  | c :: cs =>
    if c.name = nm then newNode :: cs else c :: replaceFirstNamed nm newNode cs

/-- `children.find(child => child.name === part)`. -/
def findNamed (nm : String) (cs : List FileNode) : Option FileNode :=
  cs.find? (fun c => c.name = nm)

/-- Insert one path (as its segment list) into a sibling list: descend
through the child named like the current segment if it exists, otherwise
append a fresh node (a file for the last segment, a directory otherwise)
and keep descending. -/
def insertInto : List String → String → List FileNode → List FileNode
  | [], _, cs => cs
  | part :: rest, curPath, cs =>
    let cp := mkChildPath curPath part
    match findNamed part cs with
    | some c =>
      replaceFirstNamed part ⟨c.name, c.path, c.type, insertInto rest cp c.children⟩ cs
    | none =>
      cs ++ [⟨part, cp,
        if rest.isEmpty then NodeType.file else NodeType.directory,
        insertInto rest cp []⟩]

/-- Slash-separated segments of a path, as strings. -/
def splitSegs (p : String) : List String :=
  (splitOnChar '/' p.data).map (fun cs => (⟨cs⟩ : String))

/-- Fold all paths into the root's children list. -/
def buildTreeChildren (l : List String) : List FileNode :=
  l.foldl (fun cs p => insertInto (splitSegs p) "" cs) []

/-- Ordinal code-point comparison of names, modelling `localeCompare`. -/
def lexLe : List Char → List Char → Bool
  | [], _ => true
  | _ :: _, [] => false
  | a :: as, b :: bs => decide (a < b) || (decide (a = b) && lexLe as bs)

/-- The sibling comparator of `sortTree`: directories before files, then
names ascending. -/
def nodeLe (a b : FileNode) : Bool :=
  match a.type, b.type with
  | NodeType.directory, NodeType.file => true
  | NodeType.file, NodeType.directory => false
  | _, _ => lexLe a.name.data b.name.data

/-- Insert a node into a comparator-sorted sibling list. -/
def sortedInsert (x : FileNode) : List FileNode → List FileNode
  | [] => [x]
  | y :: ys => if nodeLe x y then x :: y :: ys else y :: sortedInsert x ys

/-- Comparison sort of a sibling list (`children.sort(...)`); sibling
names are always pairwise distinct in trees built here, so any comparator
sort produces this unique sorted order. -/
def sortChildren (cs : List FileNode) : List FileNode :=
  cs.foldr sortedInsert []

/-- Apply `sortTree` recursively to every directory node of a sibling
list, sorting its children at every depth. -/
def sortDeep : List FileNode → List FileNode
  | [] => []
  | c :: cs =>
    (if c.type = NodeType.directory
     then (⟨c.name, c.path, c.type, sortChildren (sortDeep c.children)⟩ : FileNode)
     else c) :: sortDeep cs
termination_by cs => sizeOf cs
decreasing_by
  all_goals simp_wf
  all_goals
    first
    | omega
    | exact lt_of_lt_of_le (sizeOf_children_lt _) (by omega)

theorem sortDeep_nil : sortDeep [] = [] := by simp [sortDeep]

theorem sortDeep_cons (c : FileNode) (cs : List FileNode) :
    sortDeep (c :: cs) =
      (if c.type = NodeType.directory
       then (⟨c.name, c.path, c.type, sortChildren (sortDeep c.children)⟩ : FileNode)
       else c) :: sortDeep cs := by
  rw [sortDeep]

/-- The element transformation performed by `sortDeep`. -/
def sortDeepElem (c : FileNode) : FileNode :=
  if c.type = NodeType.directory
  then ⟨c.name, c.path, c.type, sortChildren (sortDeep c.children)⟩
  else c

theorem sortDeep_eq_map (cs : List FileNode) :
    sortDeep cs = cs.map sortDeepElem := by
  induction cs with
  | nil => rw [sortDeep_nil]; rfl
  | cons c cs ih => rw [sortDeep_cons, ih]; rfl

/-- `buildFileTree`: fold every path into the root and sort.  The source
sorts a node's children first and then recurses into the sorted directory
children; here the recursion happens before the sort, which yields the
same tree because sorting only permutes siblings and the recursion
preserves the fields the comparator reads
(`sortChildren_sortDeep_comm` below makes this order-independence
precise). -/
def buildFileTree (filePaths : List String) : FileNode :=
  ⟨"<root>", ".", NodeType.directory,
   sortChildren (sortDeep (buildTreeChildren filePaths))⟩

/-- `nodeLe` only reads types and names. -/
theorem nodeLe_congr {a a' b b' : FileNode} (ha1 : a.name = a'.name)
    (ha2 : a.type = a'.type) (hb1 : b.name = b'.name) (hb2 : b.type = b'.type) :
    nodeLe a b = nodeLe a' b' := by
  unfold nodeLe
  rw [ha1, ha2, hb1, hb2]

theorem sortDeepElem_name (c : FileNode) : (sortDeepElem c).name = c.name := by
  unfold sortDeepElem
  split <;> rfl

theorem sortDeepElem_type (c : FileNode) : (sortDeepElem c).type = c.type := by
  unfold sortDeepElem
  split <;> rfl

/-- A key-preserving map commutes with sorted insertion. -/
theorem map_sortedInsert (f : FileNode → FileNode)
    (hn : ∀ x, (f x).name = x.name) (ht : ∀ x, (f x).type = x.type)
    (x : FileNode) (l : List FileNode) :
    (sortedInsert x l).map f = sortedInsert (f x) (l.map f) := by
  induction l with
  | nil => rfl
  | cons y ys ih =>
    have hkey : nodeLe (f x) (f y) = nodeLe x y :=
      nodeLe_congr (hn x) (ht x) (hn y) (ht y)
    by_cases h : nodeLe x y = true
    · simp [sortedInsert, h, hkey]
    · simp only [Bool.not_eq_true] at h
      simp [sortedInsert, h, hkey, ih]

/-- A key-preserving map commutes with the comparator sort. -/
theorem map_sortChildren (f : FileNode → FileNode)
    (hn : ∀ x, (f x).name = x.name) (ht : ∀ x, (f x).type = x.type)
    (l : List FileNode) :
    sortChildren (l.map f) = (sortChildren l).map f := by
  induction l with
  | nil => rfl
  | cons y ys ih =>
    show sortedInsert (f y) (sortChildren (ys.map f)) = _
    rw [ih, ← map_sortedInsert f hn ht]
    rfl

/-- Sorting the siblings commutes with the recursive descent: this is the
order-equivalence between the source's sort-then-recurse and this file's
recurse-then-sort. -/
theorem sortChildren_sortDeep_comm (cs : List FileNode) :
    sortChildren (sortDeep cs) = sortDeep (sortChildren cs) := by
  rw [sortDeep_eq_map, sortDeep_eq_map,
    map_sortChildren sortDeepElem sortDeepElem_name sortDeepElem_type]

/-! ### Markdown rendering (src/domain/markdown/MarkdownBuilder.ts) -/

/-- Depth-first collection of the file nodes of a sibling list, in
sibling order, descending into directories
(`MarkdownBuilder.getFilesRecursive`). -/
def filesRec : List FileNode → List FileNode
  | [] => []
  | c :: cs =>
    (match c.type with
     | NodeType.file => [c]
     | NodeType.directory => filesRec c.children) ++ filesRec cs
termination_by cs => sizeOf cs
decreasing_by
  all_goals simp_wf
  all_goals
    first
    | omega
    | exact lt_of_lt_of_le (sizeOf_children_lt _) (by omega)

theorem filesRec_nil : filesRec [] = [] := by simp [filesRec]

theorem filesRec_cons (c : FileNode) (cs : List FileNode) :
    filesRec (c :: cs) =
      (match c.type with
       | NodeType.file => [c]
       | NodeType.directory => filesRec c.children) ++ filesRec cs := by
  rw [filesRec]

/-- Lookup in a key-value list (the `Map.get` of the content map). -/
def lookupStr : List (String × String) → String → Option String
  | [], _ => none
  | e :: es, k => if e.1 = k then some e.2 else lookupStr es k

/-- The characters of a basename from its last dot onwards, when that dot
is not the leading character. -/
def fromLastDot : List Char → Option (List Char)
  | [] => none
  | c :: cs =>
    match fromLastDot cs with
    | some r => some r
    | none => if c = '.' then some (c :: cs) else none

/-- `path.extname`: the extension (dot included) of the last path
segment; empty when there is no dot or only a leading dot. -/
def extname (p : String) : String :=
  match (splitOnChar '/' p.data).getLastD [] with
  | [] => ""
  | _ :: brest =>
    match fromLastDot brest with
    | some r => ⟨r⟩
    | none => ""

/-- Language tag for a file: `languageMap` lookup on the extension, with
the `plaintext` fallback. -/
def languageFor (languageMap : List (String × String)) (p : String) : String :=
  (lookupStr languageMap (extname p)).getD "plaintext"

/-- One file-content subsection: a heading naming the path and a fenced
code block tagged with the language. -/
def renderFileContent (filePath content : String)
    (languageMap : List (String × String)) : String :=
  "### `" ++ filePath ++ "`" ++ "\n\n" ++
    "````" ++ languageFor languageMap filePath ++ "\n" ++ content ++ "\n" ++
    "````" ++ "\n"

/-- Rendering of the tree lines below a node: `├── `/`└── ` connectors,
`│   `/four-space continuation, directories suffixed with a slash,
recursion only into directories. -/
def treeLines : List FileNode → String → List String
  | [], _ => []
  | [c], pre =>
    (pre ++ "└── " ++ (if c.type = NodeType.directory then c.name ++ "/" else c.name)) ::
      (if c.type = NodeType.directory
       then treeLines c.children (pre ++ "    ")
       else [])
  | c :: c' :: cs, pre =>
    (pre ++ "├── " ++ (if c.type = NodeType.directory then c.name ++ "/" else c.name)) ::
      ((if c.type = NodeType.directory
        then treeLines c.children (pre ++ "│   ")
        else []) ++ treeLines (c' :: cs) pre)
termination_by cs _ => sizeOf cs
decreasing_by
  all_goals simp_wf
  all_goals
    first
    | omega
    | exact lt_of_lt_of_le (sizeOf_children_lt _) (by omega)

theorem treeLines_nil (pre : String) : treeLines [] pre = [] := by
  simp [treeLines]

theorem treeLines_single (c : FileNode) (pre : String) :
    treeLines [c] pre =
      (pre ++ "└── " ++ (if c.type = NodeType.directory then c.name ++ "/" else c.name)) ::
        (if c.type = NodeType.directory
         then treeLines c.children (pre ++ "    ")
         else []) := by
  rw [treeLines]

theorem treeLines_cons (c c' : FileNode) (cs : List FileNode) (pre : String) :
    treeLines (c :: c' :: cs) pre =
      (pre ++ "├── " ++ (if c.type = NodeType.directory then c.name ++ "/" else c.name)) ::
        ((if c.type = NodeType.directory
          then treeLines c.children (pre ++ "│   ")
          else []) ++ treeLines (c' :: cs) pre) := by
  rw [treeLines]

/-- The fenced tree block: the root line followed by the rendered lines. -/
def renderTree (root : FileNode) : String :=
  String.intercalate "\n" ("<root>/" :: treeLines root.children "")

/-- `MarkdownBuilder.build`: title, fenced tree block, separator, then one
subsection per file node whose path has an entry in the content map, in
depth-first order. -/
def buildMarkdown (tree : FileNode) (fileContents : List (String × String))
    (languageMap : List (String × String)) : String :=
  let headerParts : List String :=
    ["# RepoScribe – Project Snapshot", "", "## Project Tree", "", "```",
     renderTree tree, "```", "", "---", "", "## File Contents", ""]
  let sections := (filesRec tree.children).foldl
    (fun acc f =>
      match lookupStr fileContents f.path with
      | some content => acc ++ [renderFileContent f.path content languageMap]
      | none => acc) []
  String.intercalate "\n" (headerParts ++ sections)

/-- The section-accumulating fold of `buildMarkdown` is the filterMap over
the depth-first file list. -/
theorem sections_foldl_eq_filterMap (m lang : List (String × String)) :
    ∀ (l : List FileNode) (acc : List String),
      l.foldl (fun acc f =>
        match lookupStr m f.path with
        | some content => acc ++ [renderFileContent f.path content lang]
        | none => acc) acc =
      acc ++ l.filterMap (fun f => (lookupStr m f.path).map
        (fun content => renderFileContent f.path content lang)) := by
  intro l
  induction l with
  | nil => intro acc; simp
  | cons c cs ih =>
    intro acc
    cases hc : lookupStr m c.path with
    | none => simp [List.foldl_cons, hc, ih, List.filterMap_cons]
    | some content => simp [List.foldl_cons, hc, ih, List.filterMap_cons]

/-- Every list of file nodes has positive size. -/
theorem one_le_sizeOf_list (cs : List FileNode) : 1 ≤ sizeOf cs := by
  cases cs with
  | nil => simp
  | cons c cs => simp; omega

/-- Every depth-first collected node is a file node and owns a line of the
rendered tree (its name at the end of the line), whatever the content
map. -/
theorem filesRec_has_tree_line :
    ∀ (n : Nat) (cs : List FileNode) (pre : String), sizeOf cs ≤ n →
      ∀ f ∈ filesRec cs, f.type = NodeType.file ∧
        ∃ lead, ∃ line ∈ treeLines cs pre, line = lead ++ f.name := by
  intro n
  induction n with
  | zero =>
    intro cs pre h
    exact absurd h (by have := one_le_sizeOf_list cs; omega)
  | succ k ih =>
    intro cs pre h f hf
    cases cs with
    | nil => rw [filesRec_nil] at hf; exact absurd hf (List.not_mem_nil f)
    | cons c cs' =>
      have hszc : sizeOf (c :: cs') = 1 + sizeOf c + sizeOf cs' := by simp
      have hck : sizeOf c.children ≤ k := by
        have := sizeOf_children_lt c; omega
      have hsk : sizeOf cs' ≤ k := by omega
      rw [filesRec_cons] at hf
      rcases List.mem_append.mp hf with hhead | htail
      · cases htype : c.type with
        | file =>
          rw [htype] at hhead
          simp only [List.mem_singleton] at hhead
          subst hhead
          cases cs' with
          | nil =>
            refine ⟨htype, pre ++ "└── ", ?_⟩
            rw [treeLines_single, htype]
            exact ⟨_, List.mem_cons_self _ _, by simp [htype]⟩
          | cons c' cs'' =>
            refine ⟨htype, pre ++ "├── ", ?_⟩
            rw [treeLines_cons, htype]
            exact ⟨_, List.mem_cons_self _ _, by simp [htype]⟩
        | directory =>
          rw [htype] at hhead
          cases cs' with
          | nil =>
            have hrec := ih c.children (pre ++ "    ") hck f hhead
            rcases hrec with ⟨hft, lead, line, hline, hlineq⟩
            refine ⟨hft, lead, line, ?_, hlineq⟩
            rw [treeLines_single, htype]
            simp only [if_pos rfl]
            exact List.mem_cons_of_mem _ hline
          | cons c' cs'' =>
            have hrec := ih c.children (pre ++ "│   ") hck f hhead
            rcases hrec with ⟨hft, lead, line, hline, hlineq⟩
            refine ⟨hft, lead, line, ?_, hlineq⟩
            rw [treeLines_cons, htype]
            simp only [if_pos rfl]
            exact List.mem_cons_of_mem _ (List.mem_append.mpr (Or.inl hline))
      · cases cs' with
        | nil => rw [filesRec_nil] at htail; exact absurd htail (List.not_mem_nil f)
        | cons c' cs'' =>
          have hrec := ih (c' :: cs'') pre hsk f htail
          rcases hrec with ⟨hft, lead, line, hline, hlineq⟩
          refine ⟨hft, lead, line, ?_, hlineq⟩
          rw [treeLines_cons]
          exact List.mem_cons_of_mem _ (List.mem_append.mpr (Or.inr hline))

/-- C10: `MarkdownBuilder.build` emits, after the fixed header and the
tree block, a file-content subsection exactly for each depth-first file
node whose path is present in the content map (a file node with no entry
is silently skipped), while the rendered tree block lists a line for every
file node regardless of the content map. -/
theorem c10_contents_exactly_mapped (tree : FileNode)
    (m lang : List (String × String)) :
    buildMarkdown tree m lang =
      String.intercalate "\n"
        (["# RepoScribe – Project Snapshot", "", "## Project Tree", "", "```",
          renderTree tree, "```", "", "---", "", "## File Contents", ""] ++
         (filesRec tree.children).filterMap
           (fun f => (lookupStr m f.path).map
             (fun content => renderFileContent f.path content lang))) ∧
    (∀ f ∈ filesRec tree.children, f.type = NodeType.file ∧
      ∃ lead, ∃ line ∈ treeLines tree.children "", line = lead ++ f.name) := by
  constructor
  · unfold buildMarkdown
    rw [sections_foldl_eq_filterMap m lang (filesRec tree.children) []]
    rfl
  · intro f hf
    exact filesRec_has_tree_line (sizeOf tree.children) tree.children ""
      (le_refl _) f hf

/-- C10 witness: a tree with one file carrying content and one without —
only the former yields a subsection, both appear in the tree block. -/
theorem c10_contents_exactly_mapped_witness :
    (buildMarkdown
        ⟨"<root>", ".", NodeType.directory,
         [⟨"a.ts", "a.ts", NodeType.file, []⟩, ⟨"b.ts", "b.ts", NodeType.file, []⟩]⟩
        [("a.ts", "A")] [(".ts", "typescript")] =
      String.intercalate "\n"
        (["# RepoScribe – Project Snapshot", "", "## Project Tree", "", "```",
          renderTree ⟨"<root>", ".", NodeType.directory,
            [⟨"a.ts", "a.ts", NodeType.file, []⟩, ⟨"b.ts", "b.ts", NodeType.file, []⟩]⟩,
          "```", "", "---", "", "## File Contents", ""] ++
         (filesRec [⟨"a.ts", "a.ts", NodeType.file, []⟩,
             ⟨"b.ts", "b.ts", NodeType.file, []⟩]).filterMap
           (fun f => (lookupStr [("a.ts", "A")] f.path).map
             (fun content =>
               renderFileContent f.path content [(".ts", "typescript")])))) ∧
    ((⟨"b.ts", "b.ts", NodeType.file, []⟩ : FileNode).type = NodeType.file ∧
      ∃ lead, ∃ line ∈ treeLines
        [⟨"a.ts", "a.ts", NodeType.file, []⟩, ⟨"b.ts", "b.ts", NodeType.file, []⟩] "",
        line = lead ++ (⟨"b.ts", "b.ts", NodeType.file, []⟩ : FileNode).name) :=
  ⟨(c10_contents_exactly_mapped
      ⟨"<root>", ".", NodeType.directory,
       [⟨"a.ts", "a.ts", NodeType.file, []⟩, ⟨"b.ts", "b.ts", NodeType.file, []⟩]⟩
      [("a.ts", "A")] [(".ts", "typescript")]).1,
   (c10_contents_exactly_mapped
      ⟨"<root>", ".", NodeType.directory,
       [⟨"a.ts", "a.ts", NodeType.file, []⟩, ⟨"b.ts", "b.ts", NodeType.file, []⟩]⟩
      [("a.ts", "A")] [(".ts", "typescript")]).2
     ⟨"b.ts", "b.ts", NodeType.file, []⟩ (by simp [filesRec])⟩

/-! ### Order-independence of buildFileTree (TreeBuilder)

The order kit: totality and key-antisymmetry of the sibling comparator. -/

/-- String equality follows from equality of the underlying characters. -/
theorem str_data_inj {s t : String} (h : s.data = t.data) : s = t := by
  cases s
  cases t
  exact congrArg String.mk h

/-- The name order is total. -/
theorem lexLe_total (x : List Char) : ∀ y, lexLe x y = true ∨ lexLe y x = true := by
  induction x with
  | nil => intro y; exact Or.inl rfl
  | cons a as ih =>
    intro y
    cases y with
    | nil => exact Or.inr rfl
    | cons b bs =>
      rcases lt_trichotomy a b with h | h | h
      · exact Or.inl (by simp [lexLe, h])
      · subst h
        rcases ih bs with h2 | h2
        · exact Or.inl (by simp [lexLe, h2])
        · exact Or.inr (by simp [lexLe, h2])
      · exact Or.inr (by simp [lexLe, h])

/-- The name order is antisymmetric. -/
theorem lexLe_antisymm : ∀ (x y : List Char),
    lexLe x y = true → lexLe y x = true → x = y := by
  intro x
  induction x with
  | nil =>
    intro y _ h2
    cases y with
    | nil => rfl
    | cons b bs => simp [lexLe] at h2
  | cons a as ih =>
    intro y h1 h2
    cases y with
    | nil => simp [lexLe] at h1
    | cons b bs =>
      simp only [lexLe, Bool.or_eq_true, Bool.and_eq_true, decide_eq_true_eq] at h1 h2
      rcases h1 with h1 | ⟨hab, h1⟩
      · rcases h2 with h2 | ⟨hba, -⟩
        · exact absurd h1 (not_lt.mpr h2.le)
        · exact absurd h1 (by rw [hba]; exact lt_irrefl a)
      · subst hab
        rcases h2 with h2 | ⟨-, h2⟩
        · exact absurd h2 (lt_irrefl a)
        · exact congrArg (a :: ·) (ih bs h1 h2)

/-- The sibling comparator is total. -/
theorem nodeLe_total (a b : FileNode) : nodeLe a b = true ∨ nodeLe b a = true := by
  unfold nodeLe
  cases ha : a.type <;> cases hb : b.type <;> simp
  · exact lexLe_total _ _
  · exact lexLe_total _ _

/-- Both comparator directions force equal keys (type and name). -/
theorem nodeLe_antisymm_key {a b : FileNode} (h1 : nodeLe a b = true)
    (h2 : nodeLe b a = true) : a.type = b.type ∧ a.name = b.name := by
  unfold nodeLe at h1 h2
  cases ha : a.type <;> cases hb : b.type <;> rw [ha, hb] at h1 h2 <;> simp_all
  · exact str_data_inj (lexLe_antisymm _ _ h1 h2)
  · exact str_data_inj (lexLe_antisymm _ _ h1 h2)

/-- The name order is transitive. -/
theorem lexLe_trans : ∀ (x y z : List Char),
    lexLe x y = true → lexLe y z = true → lexLe x z = true := by
  intro x
  induction x with
  | nil => intro y z _ _; rfl
  | cons a as ih =>
    intro y z h1 h2
    cases y with
    | nil => simp [lexLe] at h1
    | cons b bs =>
      cases z with
      | nil => simp [lexLe] at h2
      | cons c cs =>
        simp only [lexLe, Bool.or_eq_true, Bool.and_eq_true,
          decide_eq_true_eq] at h1 h2 ⊢
        rcases h1 with h1 | ⟨rfl, h1⟩
        · rcases h2 with h2 | ⟨rfl, -⟩
          · exact Or.inl (h1.trans h2)
          · exact Or.inl h1
        · rcases h2 with h2 | ⟨rfl, h2⟩
          · exact Or.inl h2
          · exact Or.inr ⟨rfl, ih bs cs h1 h2⟩

/-- The sibling comparator is transitive. -/
theorem nodeLe_trans {a b c : FileNode} (h1 : nodeLe a b = true)
    (h2 : nodeLe b c = true) : nodeLe a c = true := by
  unfold nodeLe at h1 h2 ⊢
  cases ha : a.type <;> cases hb : b.type <;> cases hc : c.type <;>
    rw [ha, hb] at h1 <;> rw [hb, hc] at h2 <;> simp_all
  · exact lexLe_trans _ _ _ h1 h2
  · exact lexLe_trans _ _ _ h1 h2

/-- Sorted insertions of nodes with different keys commute. -/
theorem sortedInsert_comm {a b : FileNode}
    (hkey : ¬(a.type = b.type ∧ a.name = b.name)) :
    ∀ l, sortedInsert a (sortedInsert b l) = sortedInsert b (sortedInsert a l) := by
  intro l
  induction l with
  | nil =>
    cases hab : nodeLe a b with
    | true =>
      have hba : nodeLe b a = false := by
        cases h : nodeLe b a
        · rfl
        · exact absurd (nodeLe_antisymm_key hab h) hkey
      simp [sortedInsert, hab, hba]
    | false =>
      have hba : nodeLe b a = true :=
        (nodeLe_total a b).resolve_left (by simp [hab])
      simp [sortedInsert, hab, hba]
  | cons y ys ih =>
    cases hay : nodeLe a y with
    | true =>
      cases hby : nodeLe b y with
      | true =>
        cases hab : nodeLe a b with
        | true =>
          have hba : nodeLe b a = false := by
            cases h : nodeLe b a
            · rfl
            · exact absurd (nodeLe_antisymm_key hab h) hkey
          simp [sortedInsert, hay, hby, hab, hba]
        | false =>
          have hba : nodeLe b a = true :=
            (nodeLe_total a b).resolve_left (by simp [hab])
          simp [sortedInsert, hay, hby, hab, hba]
      | false =>
        have hba : nodeLe b a = false := by
          cases h : nodeLe b a
          · rfl
          · exact absurd (nodeLe_trans h hay) (by simp [hby])
        have hab : nodeLe a b = true :=
          (nodeLe_total a b).resolve_right (by simp [hba])
        simp [sortedInsert, hay, hby, hab, hba]
    | false =>
      cases hby : nodeLe b y with
      | true =>
        have hab : nodeLe a b = false := by
          cases h : nodeLe a b
          · rfl
          · exact absurd (nodeLe_trans h hby) (by simp [hay])
        have hba : nodeLe b a = true :=
          (nodeLe_total a b).resolve_left (by simp [hab])
        simp [sortedInsert, hay, hby, hab, hba]
      | false =>
        simp [sortedInsert, hay, hby, ih]

/-- Sorting a list with one appended fresh-named node is a sorted
insertion into the sorted list. -/
theorem sortChildren_append_single (x : FileNode) (l : List FileNode)
    (h : ∀ y ∈ l, ¬(y.type = x.type ∧ y.name = x.name)) :
    sortChildren (l ++ [x]) = sortedInsert x (sortChildren l) := by
  induction l with
  | nil => rfl
  | cons y ys ih =>
    show sortedInsert y (sortChildren (ys ++ [x])) = _
    rw [ih (fun z hz => h z (List.mem_cons_of_mem _ hz)),
      sortedInsert_comm (h y (List.mem_cons_self _ _)) (sortChildren ys)]
    rfl

/-- Predicate scan over a sorted insertion. -/
theorem any_sortedInsert (p : FileNode → Bool) (x : FileNode) (l : List FileNode) :
    (sortedInsert x l).any p = (p x || l.any p) := by
  induction l with
  | nil => simp [sortedInsert]
  | cons y ys ih =>
    cases h : nodeLe x y with
    | true => simp [sortedInsert, h]
    | false =>
      simp only [sortedInsert, h, Bool.false_eq_true, if_false, List.any_cons, ih]
      rw [Bool.or_left_comm]

/-- Membership in a sorted insertion. -/
theorem mem_sortedInsert {z x : FileNode} {l : List FileNode} :
    z ∈ sortedInsert x l ↔ z = x ∨ z ∈ l := by
  induction l with
  | nil => simp [sortedInsert]
  | cons y ys ih =>
    cases h : nodeLe x y with
    | true => simp [sortedInsert, h]
    | false =>
      simp only [sortedInsert, h, Bool.false_eq_true, if_false, List.mem_cons, ih]
      tauto

/-- Whether some sibling carries the given name. -/
def anyName (nm : String) (cs : List FileNode) : Bool :=
  cs.any (fun c => c.name = nm)

theorem anyName_sortedInsert (nm : String) (x : FileNode) (l : List FileNode) :
    anyName nm (sortedInsert x l) = (decide (x.name = nm) || anyName nm l) :=
  any_sortedInsert _ x l

theorem anyName_sortChildren (nm : String) (l : List FileNode) :
    anyName nm (sortChildren l) = anyName nm l := by
  induction l with
  | nil => rfl
  | cons y ys ih =>
    show anyName nm (sortedInsert y (sortChildren ys)) = _
    rw [anyName_sortedInsert, ih]
    simp [anyName]

theorem anyName_map (nm : String) (f : FileNode → FileNode) (l : List FileNode)
    (h : ∀ y ∈ l, (f y).name = y.name) :
    anyName nm (l.map f) = anyName nm l := by
  induction l with
  | nil => rfl
  | cons y ys ih =>
    simp only [List.map_cons, anyName, List.any_cons] at *
    rw [h y (List.mem_cons_self _ _), ih (fun z hz => h z (List.mem_cons_of_mem _ hz))]

/-! ### The canonical (sorted-position) insertion

`cinsertInto` performs the same find-or-create descent as `insertInto`
but keeps every sibling list sorted: a fresh node goes to its sorted
position instead of the end.  It is proof apparatus: sorting after the
append-based fold equals folding with sorted insertion, and the sorted
insertion commutes for prefix-free paths, which yields
order-independence. -/

/-- Rewrite the first sibling with the given name through a function. -/
def updFirstBy (part : String) (g : FileNode → FileNode) :
    List FileNode → List FileNode
  | [] => []
  | c :: cs => if c.name = part then g c :: cs else c :: updFirstBy part g cs

/-- Sorted-position variant of `insertInto`. -/
def cinsertInto : List String → String → List FileNode → List FileNode
  | [], _, cs => cs
  | part :: rest, curPath, cs =>
    let cp := mkChildPath curPath part
    if anyName part cs
    then updFirstBy part
      (fun c => ⟨c.name, c.path, c.type, cinsertInto rest cp c.children⟩) cs
    else
      sortedInsert
        ⟨part, cp, if rest.isEmpty then NodeType.file else NodeType.directory,
         cinsertInto rest cp []⟩ cs

/-- Fold all paths with the canonical insertion. -/
def cbuildChildren (l : List String) : List FileNode :=
  l.foldl (fun cs pth => cinsertInto (splitSegs pth) "" cs) []

/-! ### Sibling-name distinctness and file positions -/

/-- Pairwise-distinct sibling names at every depth. -/
def distinctNamesB : List FileNode → Bool
  | [] => true
  | c :: cs => (!(anyName c.name cs)) && distinctNamesB c.children && distinctNamesB cs
termination_by cs => sizeOf cs
decreasing_by
  all_goals simp_wf
  all_goals
    first
    | omega
    | exact lt_of_lt_of_le (sizeOf_children_lt _) (by omega)

theorem distinctNamesB_nil : distinctNamesB [] = true := by simp [distinctNamesB]

theorem distinctNamesB_cons (c : FileNode) (cs : List FileNode) :
    distinctNamesB (c :: cs) =
      ((!(anyName c.name cs)) && distinctNamesB c.children && distinctNamesB cs) := by
  rw [distinctNamesB]

/-- Whether the node reached by a segment sequence exists and is a file. -/
def hasFileAt : List FileNode → List String → Bool
  | _, [] => false
  | cs, part :: rest =>
    match findNamed part cs with
    | none => false
    | some c =>
      if rest.isEmpty then decide (c.type = NodeType.file)
      else hasFileAt c.children rest

/-- The descent of a segment sequence crosses no file node strictly
before its end. -/
def NoFileDescend (cs : List FileNode) (parts : List String) : Prop :=
  ∀ k, 0 < k → k < parts.length → hasFileAt cs (parts.take k) = false

/-- The names of a sibling list. -/
def namesOf (cs : List FileNode) : List String := cs.map FileNode.name

theorem distinct_nodup_names : ∀ (cs : List FileNode),
    distinctNamesB cs = true → (namesOf cs).Nodup := by
  intro cs
  induction cs with
  | nil => intro _; simp [namesOf]
  | cons c cs ih =>
    intro h
    rw [distinctNamesB_cons] at h
    simp only [Bool.and_eq_true, Bool.not_eq_true'] at h
    refine List.nodup_cons.mpr ⟨?_, ih h.2⟩
    intro hmem
    simp only [namesOf, List.mem_map] at hmem
    rcases hmem with ⟨d, hd, hdn⟩
    have : anyName c.name cs = true := by
      simp [anyName, List.any_eq_true]
      exact ⟨d, hd, hdn⟩
    rw [this] at h
    exact Bool.noConfusion h.1.1

theorem distinct_head_not_mem {c : FileNode} {cs : List FileNode}
    (h : distinctNamesB (c :: cs) = true) : anyName c.name cs = false := by
  rw [distinctNamesB_cons] at h
  simp only [Bool.and_eq_true, Bool.not_eq_true'] at h
  exact h.1.1

theorem distinct_tail {c : FileNode} {cs : List FileNode}
    (h : distinctNamesB (c :: cs) = true) : distinctNamesB cs = true := by
  rw [distinctNamesB_cons] at h
  simp only [Bool.and_eq_true] at h
  exact h.2

theorem distinct_head_children {c : FileNode} {cs : List FileNode}
    (h : distinctNamesB (c :: cs) = true) : distinctNamesB c.children = true := by
  rw [distinctNamesB_cons] at h
  simp only [Bool.and_eq_true] at h
  exact h.1.2

theorem distinct_child : ∀ {cs : List FileNode}, distinctNamesB cs = true →
    ∀ {c : FileNode}, c ∈ cs → distinctNamesB c.children = true := by
  intro cs
  induction cs with
  | nil => intro _ c hc; exact absurd hc (List.not_mem_nil c)
  | cons d ds ih =>
    intro h c hc
    rcases List.mem_cons.mp hc with rfl | hc
    · exact distinct_head_children h
    · exact ih (distinct_tail h) hc

/-! ### find and replace kit -/

theorem findNamed_none_iff {nm : String} {cs : List FileNode} :
    findNamed nm cs = none ↔ anyName nm cs = false := by
  simp [findNamed, anyName, List.find?_eq_none, List.any_eq_false]

theorem findNamed_mem {nm : String} {cs : List FileNode} {c : FileNode}
    (h : findNamed nm cs = some c) : c ∈ cs ∧ c.name = nm := by
  refine ⟨List.mem_of_find?_eq_some h, ?_⟩
  have := List.find?_some h
  simpa using this

theorem anyName_of_findNamed {nm : String} {cs : List FileNode} {c : FileNode}
    (h : findNamed nm cs = some c) : anyName nm cs = true := by
  have hm := findNamed_mem h
  simp only [anyName, List.any_eq_true]
  exact ⟨c, hm.1, by simp [hm.2]⟩

theorem findNamed_replaceFirst_other {nm part : String} {c' : FileNode}
    (hne : nm ≠ part) (hc' : c'.name = part) :
    ∀ cs, findNamed nm (replaceFirstNamed part c' cs) = findNamed nm cs := by
  intro cs
  induction cs with
  | nil => rfl
  | cons c cs ih =>
    by_cases h : c.name = part
    · simp only [replaceFirstNamed, if_pos h, findNamed, List.find?_cons]
      have h1 : (decide (c'.name = nm)) = false := by
        simp [hc']
        exact fun hh => hne hh.symm
      have h2 : (decide (c.name = nm)) = false := by
        simp [h]
        exact fun hh => hne hh.symm
      rw [h1, h2]
    · simp only [replaceFirstNamed, if_neg h, findNamed, List.find?_cons]
      cases hd : decide (c.name = nm) with
      | true => rfl
      | false => exact ih

theorem findNamed_replaceFirst_self {part : String} {c' : FileNode} :
    ∀ {cs : List FileNode}, anyName part cs = true → c'.name = part →
      findNamed part (replaceFirstNamed part c' cs) = some c' := by
  intro cs
  induction cs with
  | nil => intro h _; simp [anyName] at h
  | cons c cs ih =>
    intro h hc'
    by_cases hn : c.name = part
    · simp [replaceFirstNamed, if_pos hn, findNamed, List.find?_cons, hc']
    · simp only [replaceFirstNamed, if_neg hn, findNamed, List.find?_cons]
      rw [show (decide (c.name = part)) = false by simp [hn]]
      have h2 : anyName part cs = true := by
        simp only [anyName, List.any_cons] at h
        rcases Bool.or_eq_true_iff.mp h with h | h
        · exact absurd (by simpa using h) hn
        · exact h
      exact ih h2 hc'

theorem findNamed_append_other {nm : String} {n : FileNode}
    (hne : nm ≠ n.name) : ∀ cs, findNamed nm (cs ++ [n]) = findNamed nm cs := by
  intro cs
  induction cs with
  | nil =>
    simp only [List.nil_append, findNamed, List.find?_cons, List.find?_nil]
    rw [show (decide (n.name = nm)) = false from
      decide_eq_false (fun hh => hne hh.symm)]
  | cons c cs ih =>
    simp only [List.cons_append, findNamed, List.find?_cons] at *
    cases hd : decide (c.name = nm) with
    | true => rfl
    | false => exact ih

theorem findNamed_append_self (n : FileNode) :
    ∀ {cs : List FileNode}, anyName n.name cs = false →
      findNamed n.name (cs ++ [n]) = some n := by
  intro cs
  induction cs with
  | nil => simp [findNamed, List.find?_cons]
  | cons c cs ih =>
    intro h
    simp only [anyName, List.any_cons, Bool.or_eq_false_iff] at h
    simp only [List.cons_append, findNamed, List.find?_cons]
    rw [show (decide (c.name = n.name)) = false by simpa using h.1]
    exact ih (by simpa [anyName] using h.2)

theorem anyName_replaceFirst {nm part : String} {c' : FileNode}
    (hc' : c'.name = part) :
    ∀ cs, anyName nm (replaceFirstNamed part c' cs) = anyName nm cs := by
  intro cs
  induction cs with
  | nil => rfl
  | cons c cs ih =>
    by_cases h : c.name = part
    · simp [replaceFirstNamed, if_pos h, anyName, hc', h]
    · simp only [replaceFirstNamed, if_neg h, anyName, List.any_cons] at *
      rw [ih]

theorem map_if_name_id {part : String} (g : FileNode → FileNode) :
    ∀ (l : List FileNode), (∀ x ∈ l, x.name ≠ part) →
      (l.map (fun x => if x.name = part then g x else x)) = l := by
  intro l
  induction l with
  | nil => intro _; rfl
  | cons c cs ih =>
    intro h
    simp only [List.map_cons, if_neg (h c (List.mem_cons_self _ _))]
    rw [ih (fun x hx => h x (List.mem_cons_of_mem _ hx))]

theorem not_mem_names_of_nodup {c : FileNode} {cs : List FileNode}
    (h : (namesOf (c :: cs)).Nodup) : ∀ x ∈ cs, x.name ≠ c.name := by
  intro x hx heq
  simp only [namesOf, List.map_cons, List.nodup_cons] at h
  exact h.1 (List.mem_map.mpr ⟨x, hx, heq⟩)

theorem replaceFirst_eq_map {part : String} {c' : FileNode} :
    ∀ {cs : List FileNode}, (namesOf cs).Nodup →
      replaceFirstNamed part c' cs =
        cs.map (fun x => if x.name = part then c' else x) := by
  intro cs
  induction cs with
  | nil => intro _; rfl
  | cons c cs ih =>
    intro hnd
    by_cases h : c.name = part
    · simp only [replaceFirstNamed, if_pos h, List.map_cons, if_pos h]
      rw [map_if_name_id _ cs]
      intro x hx hxn
      exact (not_mem_names_of_nodup hnd x hx) (hxn.trans h.symm)
    · simp only [replaceFirstNamed, if_neg h, List.map_cons, if_neg h]
      rw [ih ?_]
      simp only [namesOf, List.map_cons, List.nodup_cons] at hnd
      exact hnd.2

theorem mem_sortChildren {z : FileNode} : ∀ {l : List FileNode},
    z ∈ sortChildren l ↔ z ∈ l := by
  intro l
  induction l with
  | nil => simp [sortChildren]
  | cons y ys ih =>
    show z ∈ sortedInsert y (sortChildren ys) ↔ _
    rw [mem_sortedInsert]
    simp [ih]

/-- A map preserving keys of the relevant nodes commutes with sorted
insertion. -/
theorem map_sortedInsert_mem (f : FileNode → FileNode) (x : FileNode) :
    ∀ (l : List FileNode),
      (∀ y ∈ x :: l, (f y).name = y.name ∧ (f y).type = y.type) →
      (sortedInsert x l).map f = sortedInsert (f x) (l.map f) := by
  intro l
  induction l with
  | nil => intro _; rfl
  | cons y ys ih =>
    intro hf
    have hx := hf x (List.mem_cons_self _ _)
    have hy := hf y (List.mem_cons_of_mem _ (List.mem_cons_self _ _))
    have hkey : nodeLe (f x) (f y) = nodeLe x y :=
      nodeLe_congr hx.1 hx.2 hy.1 hy.2
    cases h : nodeLe x y with
    | true => simp [sortedInsert, h, hkey]
    | false =>
      have ih' := ih (fun z hz => by
        rcases List.mem_cons.mp hz with rfl | hz
        · exact hx
        · exact hf z (List.mem_cons_of_mem _ (List.mem_cons_of_mem _ hz)))
      simp [sortedInsert, h, hkey, ih']

/-- A map preserving keys of the list's nodes commutes with the sort. -/
theorem map_sortChildren_mem (f : FileNode → FileNode) :
    ∀ (l : List FileNode),
      (∀ y ∈ l, (f y).name = y.name ∧ (f y).type = y.type) →
      sortChildren (l.map f) = (sortChildren l).map f := by
  intro l
  induction l with
  | nil => intro _; rfl
  | cons y ys ih =>
    intro hf
    show sortedInsert (f y) (sortChildren (ys.map f)) = _
    rw [ih (fun z hz => hf z (List.mem_cons_of_mem _ hz))]
    rw [← map_sortedInsert_mem f y (sortChildren ys)]
    · rfl
    · intro z hz
      rcases List.mem_cons.mp hz with rfl | hz
      · exact hf z (List.mem_cons_self _ _)
      · exact hf z (List.mem_cons_of_mem _ (mem_sortChildren.mp hz))

/-! ### updFirstBy kit -/

theorem anyName_updFirstBy (nm part : String) (g : FileNode → FileNode)
    (hg : ∀ c, (g c).name = c.name) :
    ∀ cs, anyName nm (updFirstBy part g cs) = anyName nm cs := by
  intro cs
  induction cs with
  | nil => rfl
  | cons c cs ih =>
    by_cases h : c.name = part
    · simp [updFirstBy, if_pos h, anyName, hg]
    · simp only [updFirstBy, if_neg h, anyName, List.any_cons] at *
      rw [ih]

theorem updFirstBy_eq_map {part : String} {g : FileNode → FileNode} :
    ∀ {cs : List FileNode}, (namesOf cs).Nodup →
      updFirstBy part g cs =
        cs.map (fun x => if x.name = part then g x else x) := by
  intro cs
  induction cs with
  | nil => intro _; rfl
  | cons c cs ih =>
    intro hnd
    by_cases h : c.name = part
    · simp only [updFirstBy, if_pos h, List.map_cons, if_pos h]
      rw [map_if_name_id _ cs]
      intro x hx hxn
      exact (not_mem_names_of_nodup hnd x hx) (hxn.trans h.symm)
    · simp only [updFirstBy, if_neg h, List.map_cons, if_neg h]
      rw [ih ?_]
      simp only [namesOf, List.map_cons, List.nodup_cons] at hnd
      exact hnd.2

theorem updFirstBy_sortedInsert_other {part : String} {g : FileNode → FileNode}
    {n : FileNode} (hne : ¬(n.name = part))
    (hg : ∀ c, (g c).name = c.name ∧ (g c).type = c.type) :
    ∀ cs, updFirstBy part g (sortedInsert n cs) =
      sortedInsert n (updFirstBy part g cs) := by
  intro cs
  induction cs with
  | nil => simp [sortedInsert, updFirstBy, if_neg hne]
  | cons y ys ih =>
    cases hle : nodeLe n y with
    | true =>
      have e1 : sortedInsert n (y :: ys) = n :: y :: ys := by
        simp [sortedInsert, hle]
      rw [e1]
      by_cases hy : y.name = part
      · have key : nodeLe n (g y) = nodeLe n y :=
          nodeLe_congr rfl rfl (hg y).1 (hg y).2
        simp [updFirstBy, if_neg hne, if_pos hy, sortedInsert, key, hle]
      · simp [updFirstBy, if_neg hne, if_neg hy, sortedInsert, hle]
    | false =>
      have e1 : sortedInsert n (y :: ys) = y :: sortedInsert n ys := by
        simp [sortedInsert, hle]
      rw [e1]
      by_cases hy : y.name = part
      · have key : nodeLe n (g y) = nodeLe n y :=
          nodeLe_congr rfl rfl (hg y).1 (hg y).2
        simp [updFirstBy, if_pos hy, sortedInsert, key, hle]
      · simp only [updFirstBy, if_neg hy]
        rw [ih]
        have e2 : sortedInsert n (y :: updFirstBy part g ys) =
            y :: sortedInsert n (updFirstBy part g ys) := by
          simp [sortedInsert, hle]
        rw [e2]

theorem updFirstBy_sortedInsert_self {part : String} {g : FileNode → FileNode}
    {n : FileNode} (hn : n.name = part)
    (hg : ∀ c, (g c).name = c.name ∧ (g c).type = c.type) :
    ∀ cs, anyName part cs = false →
      updFirstBy part g (sortedInsert n cs) = sortedInsert (g n) cs := by
  intro cs
  induction cs with
  | nil => intro _; simp [sortedInsert, updFirstBy, if_pos hn]
  | cons y ys ih =>
    intro hany
    simp only [anyName, List.any_cons, Bool.or_eq_false_iff] at hany
    have hyname : ¬(y.name = part) := by simpa using hany.1
    have key : nodeLe (g n) y = nodeLe n y :=
      nodeLe_congr (hg n).1 (hg n).2 rfl rfl
    cases hle : nodeLe n y with
    | true =>
      have e1 : sortedInsert n (y :: ys) = n :: y :: ys := by
        simp [sortedInsert, hle]
      rw [e1]
      simp [updFirstBy, if_pos hn, sortedInsert, key, hle]
    | false =>
      have e1 : sortedInsert n (y :: ys) = y :: sortedInsert n ys := by
        simp [sortedInsert, hle]
      rw [e1]
      simp only [updFirstBy, if_neg hyname]
      rw [ih (by simpa [anyName] using hany.2)]
      simp [sortedInsert, key, hle]

theorem updFirstBy_comm {a b : String} (hab : ¬(a = b))
    (ga gb : FileNode → FileNode)
    (hgb : ∀ c, (gb c).name = c.name) (hga : ∀ c, (ga c).name = c.name) :
    ∀ cs, updFirstBy a ga (updFirstBy b gb cs) =
      updFirstBy b gb (updFirstBy a ga cs) := by
  intro cs
  induction cs with
  | nil => rfl
  | cons c cs ih =>
    by_cases hca : c.name = a
    · have hcb : ¬(c.name = b) := fun h => hab (hca.symm.trans h)
      have hcb' : ¬((ga c).name = b) := by rw [hga c]; exact hcb
      simp [updFirstBy, if_neg hcb, if_pos hca, if_neg hcb']
    · by_cases hcb : c.name = b
      · have hca' : ¬((gb c).name = a) := by rw [hgb c]; exact hca
        simp [updFirstBy, if_pos hcb, if_neg hca, if_neg hca']
      · simp [updFirstBy, if_neg hca, if_neg hcb, ih]

/-! ### Invariant preservation -/

theorem anyName_append_single (nm : String) (n : FileNode) (cs : List FileNode) :
    anyName nm (cs ++ [n]) = (anyName nm cs || decide (n.name = nm)) := by
  simp [anyName, List.any_append]

theorem distinct_sortedInsert {n : FileNode} :
    ∀ {cs : List FileNode}, distinctNamesB cs = true →
      anyName n.name cs = false → distinctNamesB n.children = true →
      distinctNamesB (sortedInsert n cs) = true := by
  intro cs
  induction cs with
  | nil =>
    intro _ _ hcn
    show distinctNamesB [n] = true
    simp [distinctNamesB_cons, distinctNamesB_nil, anyName, hcn]
  | cons y ys ih =>
    intro hd hn hcn
    simp only [anyName, List.any_cons, Bool.or_eq_false_iff] at hn
    cases hle : nodeLe n y with
    | true =>
      have e1 : sortedInsert n (y :: ys) = n :: y :: ys := by
        simp [sortedInsert, hle]
      rw [e1, distinctNamesB_cons]
      simp only [Bool.and_eq_true, Bool.not_eq_true']
      refine ⟨⟨?_, hcn⟩, hd⟩
      simp only [anyName, List.any_cons, Bool.or_eq_false_iff]
      exact hn
    | false =>
      have e1 : sortedInsert n (y :: ys) = y :: sortedInsert n ys := by
        simp [sortedInsert, hle]
      rw [e1, distinctNamesB_cons]
      simp only [Bool.and_eq_true, Bool.not_eq_true']
      refine ⟨⟨?_, distinct_head_children hd⟩,
        ih (distinct_tail hd) (by simpa [anyName] using hn.2) hcn⟩
      rw [anyName_sortedInsert]
      simp only [Bool.or_eq_false_iff]
      constructor
      · simp only [decide_eq_false_iff_not]
        intro heq
        have := hn.1
        simp [heq] at this
      · exact distinct_head_not_mem hd

theorem distinct_append_single {n : FileNode} :
    ∀ {cs : List FileNode}, distinctNamesB cs = true →
      anyName n.name cs = false → distinctNamesB n.children = true →
      distinctNamesB (cs ++ [n]) = true := by
  intro cs
  induction cs with
  | nil =>
    intro _ _ hcn
    show distinctNamesB [n] = true
    simp [distinctNamesB_cons, distinctNamesB_nil, anyName, hcn]
  | cons y ys ih =>
    intro hd hn hcn
    simp only [anyName, List.any_cons, Bool.or_eq_false_iff] at hn
    rw [List.cons_append, distinctNamesB_cons]
    simp only [Bool.and_eq_true, Bool.not_eq_true']
    refine ⟨⟨?_, distinct_head_children hd⟩,
      ih (distinct_tail hd) (by simpa [anyName] using hn.2) hcn⟩
    rw [anyName_append_single]
    simp only [Bool.or_eq_false_iff]
    refine ⟨distinct_head_not_mem hd, ?_⟩
    simp only [decide_eq_false_iff_not]
    intro heq
    have := hn.1
    simp [heq] at this

theorem distinct_replaceFirst {part : String} {c' : FileNode}
    (hc' : c'.name = part) (hch : distinctNamesB c'.children = true) :
    ∀ {cs : List FileNode}, distinctNamesB cs = true →
      distinctNamesB (replaceFirstNamed part c' cs) = true := by
  intro cs
  induction cs with
  | nil => intro _; exact distinctNamesB_nil
  | cons y ys ih =>
    intro hd
    by_cases h : y.name = part
    · simp only [replaceFirstNamed, if_pos h]
      rw [distinctNamesB_cons]
      simp only [Bool.and_eq_true, Bool.not_eq_true']
      refine ⟨⟨?_, hch⟩, distinct_tail hd⟩
      rw [hc', ← h]
      exact distinct_head_not_mem hd
    · simp only [replaceFirstNamed, if_neg h]
      rw [distinctNamesB_cons]
      simp only [Bool.and_eq_true, Bool.not_eq_true']
      refine ⟨⟨?_, distinct_head_children hd⟩, ih (distinct_tail hd)⟩
      rw [anyName_replaceFirst hc']
      exact distinct_head_not_mem hd

theorem distinct_insertInto : ∀ (parts : List String) (cp : String)
    (cs : List FileNode), distinctNamesB cs = true →
    distinctNamesB (insertInto parts cp cs) = true := by
  intro parts
  induction parts with
  | nil => intro cp cs hd; exact hd
  | cons part rest ih =>
    intro cp cs hd
    simp only [insertInto]
    cases hf : findNamed part cs with
    | some c =>
      have hm := findNamed_mem hf
      refine distinct_replaceFirst ?_ ?_ hd
      · exact hm.2
      · exact ih _ _ (distinct_child hd hm.1)
    | none =>
      exact distinct_append_single hd (findNamed_none_iff.mp hf)
        (ih _ _ distinctNamesB_nil)

theorem distinct_updFirstBy' {part : String} {g : FileNode → FileNode}
    (hg : ∀ c, (g c).name = c.name)
    (hgch : ∀ c, distinctNamesB c.children = true →
      distinctNamesB (g c).children = true) :
    ∀ {cs : List FileNode}, distinctNamesB cs = true →
      distinctNamesB (updFirstBy part g cs) = true := by
  intro cs
  induction cs with
  | nil => intro _; exact distinctNamesB_nil
  | cons y ys ih =>
    intro hd
    by_cases h : y.name = part
    · simp only [updFirstBy, if_pos h]
      rw [distinctNamesB_cons]
      simp only [Bool.and_eq_true, Bool.not_eq_true']
      refine ⟨⟨?_, hgch y (distinct_head_children hd)⟩, distinct_tail hd⟩
      rw [hg y]
      exact distinct_head_not_mem hd
    · simp only [updFirstBy, if_neg h]
      rw [distinctNamesB_cons]
      simp only [Bool.and_eq_true, Bool.not_eq_true']
      refine ⟨⟨?_, distinct_head_children hd⟩, ih (distinct_tail hd)⟩
      rw [anyName_updFirstBy _ _ _ hg]
      exact distinct_head_not_mem hd

theorem distinct_cinsertInto : ∀ (parts : List String) (cp : String)
    (cs : List FileNode), distinctNamesB cs = true →
    distinctNamesB (cinsertInto parts cp cs) = true := by
  intro parts
  induction parts with
  | nil => intro cp cs hd; exact hd
  | cons part rest ih =>
    intro cp cs hd
    simp only [cinsertInto]
    by_cases hany : anyName part cs = true
    · rw [if_pos hany]
      refine distinct_updFirstBy' ?_ ?_ hd
      · intro c; rfl
      · intro c hc; exact ih _ _ hc
    · rw [if_neg hany]
      refine distinct_sortedInsert hd ?_ (ih _ _ distinctNamesB_nil)
      simpa using hany

theorem hasFileAt_nil_left : ∀ (q : List String), hasFileAt [] q = false := by
  intro q
  cases q with
  | nil => rfl
  | cons y qr => simp [hasFileAt, findNamed]

theorem hasFileAt_insertInto : ∀ (parts : List String) (cp : String)
    (cs : List FileNode) (q : List String),
    hasFileAt (insertInto parts cp cs) q = true →
    hasFileAt cs q = true ∨ q = parts := by
  intro parts
  induction parts with
  | nil => intro cp cs q h; exact Or.inl h
  | cons part rest ih =>
    intro cp cs q h
    cases q with
    | nil => simp [hasFileAt] at h
    | cons y qr =>
      simp only [insertInto] at h
      cases hf : findNamed part cs with
      | some c =>
        rw [hf] at h
        have hm := findNamed_mem hf
        by_cases hy : y = part
        · subst hy
          have hfound : findNamed y (replaceFirstNamed y
              (⟨c.name, c.path, c.type, insertInto rest (mkChildPath cp y) c.children⟩ : FileNode) cs) =
              some (⟨c.name, c.path, c.type, insertInto rest (mkChildPath cp y) c.children⟩ : FileNode) :=
            findNamed_replaceFirst_self (anyName_of_findNamed hf) hm.2
          simp only [hasFileAt, hfound] at h
          cases qr with
          | nil =>
            simp only [List.isEmpty_nil, if_true] at h
            refine Or.inl ?_
            simp only [hasFileAt, hf, List.isEmpty_nil, if_true]
            exact h
          | cons z zr =>
            simp only [List.isEmpty_cons, if_false] at h
            rcases ih _ _ _ h with h2 | h2
            · refine Or.inl ?_
              simp only [hasFileAt, hf, List.isEmpty_cons, if_false]
              exact h2
            · exact Or.inr (by rw [h2])
        · have heq : findNamed y (replaceFirstNamed part
              (⟨c.name, c.path, c.type, insertInto rest (mkChildPath cp part) c.children⟩ : FileNode) cs) =
              findNamed y cs :=
            findNamed_replaceFirst_other hy
              (show (⟨c.name, c.path, c.type,
                  insertInto rest (mkChildPath cp part) c.children⟩ : FileNode).name = part
                from hm.2) cs
          simp only [hasFileAt, heq] at h
          exact Or.inl (by simp only [hasFileAt]; exact h)
      | none =>
        rw [hf] at h
        by_cases hy : y = part
        · subst hy
          have hfound : findNamed y (cs ++
              [(⟨y, mkChildPath cp y,
                 if rest.isEmpty then NodeType.file else NodeType.directory,
                 insertInto rest (mkChildPath cp y) []⟩ : FileNode)]) =
              some (⟨y, mkChildPath cp y,
                 if rest.isEmpty then NodeType.file else NodeType.directory,
                 insertInto rest (mkChildPath cp y) []⟩ : FileNode) :=
            findNamed_append_self
              (⟨y, mkChildPath cp y,
                 if rest.isEmpty then NodeType.file else NodeType.directory,
                 insertInto rest (mkChildPath cp y) []⟩ : FileNode)
              (findNamed_none_iff.mp hf)
          simp only [hasFileAt, hfound] at h
          cases qr with
          | nil =>
            simp only [List.isEmpty_nil, if_true] at h
            cases rest with
            | nil => exact Or.inr rfl
            | cons r rs => simp at h
          | cons z zr =>
            simp only [List.isEmpty_cons, if_false] at h
            rcases ih _ _ _ h with h2 | h2
            · rw [hasFileAt_nil_left] at h2
              exact Bool.noConfusion h2
            · exact Or.inr (by rw [h2])
        · have heq : findNamed y (cs ++
              [(⟨part, mkChildPath cp part,
                 if rest.isEmpty then NodeType.file else NodeType.directory,
                 insertInto rest (mkChildPath cp part) []⟩ : FileNode)]) =
              findNamed y cs :=
            findNamed_append_other (by simpa using hy) cs
          simp only [hasFileAt, heq] at h
          exact Or.inl (by simp only [hasFileAt]; exact h)

/-! ### The sorted view of a sibling list -/

/-- Fully sorted view: recursively sort, then sort the top level. -/
def sortNodeL (cs : List FileNode) : List FileNode :=
  sortChildren (sortDeep cs)

theorem sortNodeL_nil : sortNodeL [] = [] := by
  rw [sortNodeL, sortDeep_nil]
  rfl

theorem anyName_sortDeep (nm : String) (cs : List FileNode) :
    anyName nm (sortDeep cs) = anyName nm cs := by
  rw [sortDeep_eq_map]
  exact anyName_map nm sortDeepElem cs (fun y _ => sortDeepElem_name y)

theorem anyName_sortNodeL (nm : String) (cs : List FileNode) :
    anyName nm (sortNodeL cs) = anyName nm cs := by
  rw [sortNodeL, anyName_sortChildren, anyName_sortDeep]

theorem sortedInsert_perm (x : FileNode) :
    ∀ (l : List FileNode), (sortedInsert x l).Perm (x :: l) := by
  intro l
  induction l with
  | nil => exact List.Perm.refl _
  | cons y ys ih =>
    cases h : nodeLe x y with
    | true =>
      have e : sortedInsert x (y :: ys) = x :: y :: ys := by
        simp [sortedInsert, h]
      rw [e]
    | false =>
      have e : sortedInsert x (y :: ys) = y :: sortedInsert x ys := by
        simp [sortedInsert, h]
      rw [e]
      exact (List.Perm.cons y ih).trans (List.Perm.swap x y ys)

theorem sortChildren_perm : ∀ (l : List FileNode), (sortChildren l).Perm l := by
  intro l
  induction l with
  | nil => exact List.Perm.refl _
  | cons y ys ih =>
    show (sortedInsert y (sortChildren ys)).Perm (y :: ys)
    exact (sortedInsert_perm y (sortChildren ys)).trans (List.Perm.cons y ih)

theorem namesOf_sortDeep (cs : List FileNode) :
    namesOf (sortDeep cs) = namesOf cs := by
  rw [sortDeep_eq_map]
  simp only [namesOf, List.map_map]
  exact List.map_congr_left (fun c _ => sortDeepElem_name c)

theorem nodup_names_sortNodeL {cs : List FileNode}
    (h : distinctNamesB cs = true) : (namesOf (sortNodeL cs)).Nodup := by
  have h1 : (namesOf (sortNodeL cs)).Perm (namesOf (sortDeep cs)) :=
    (sortChildren_perm (sortDeep cs)).map FileNode.name
  rw [namesOf_sortDeep] at h1
  exact h1.nodup_iff.mpr (distinct_nodup_names cs h)

theorem findNamed_unique {part : String} {c : FileNode} :
    ∀ {cs : List FileNode}, findNamed part cs = some c →
      (namesOf cs).Nodup → ∀ x ∈ cs, x.name = part → x = c := by
  intro cs
  induction cs with
  | nil => intro h _ x hx; exact absurd hx (List.not_mem_nil x)
  | cons y ys ih =>
    intro hf hnd x hx hxn
    rcases List.mem_cons.mp hx with rfl | hx
    · simp only [findNamed, List.find?_cons] at hf
      rw [show (decide (x.name = part)) = true by simp [hxn]] at hf
      exact Option.some.inj hf
    · by_cases hyn : y.name = part
      · exact absurd (hxn.trans hyn.symm)
          (not_mem_names_of_nodup hnd x hx)
      · simp only [findNamed, List.find?_cons] at hf
        rw [show (decide (y.name = part)) = false by simp [hyn]] at hf
        refine ih hf ?_ x hx hxn
        simp only [namesOf, List.map_cons, List.nodup_cons] at hnd
        exact hnd.2

theorem noFileDescend_nil (parts : List String) : NoFileDescend [] parts := by
  intro k _ _
  exact hasFileAt_nil_left _

theorem noFileDescend_child {part : String} {rest : List String}
    {cs : List FileNode} {c : FileNode} (hf : findNamed part cs = some c)
    (hnf : NoFileDescend cs (part :: rest)) :
    NoFileDescend c.children rest := by
  intro k hk1 hk2
  have h := hnf (k + 1) (by omega) (by simp; omega)
  have htake : (part :: rest).take (k + 1) = part :: rest.take k := rfl
  rw [htake] at h
  have hne : (rest.take k).isEmpty = false := by
    cases hr : rest.take k with
    | nil =>
      have : (rest.take k).length = k := by
        rw [List.length_take]
        omega
      rw [hr] at this
      simp at this
      omega
    | cons a l => rfl
  simp only [hasFileAt, hf, hne, Bool.false_eq_true, if_false] at h
  exact h

theorem sortNodeL_insertInto :
    ∀ (parts : List String) (cp : String) (cs : List FileNode),
      distinctNamesB cs = true → NoFileDescend cs parts →
      sortNodeL (insertInto parts cp cs) = cinsertInto parts cp (sortNodeL cs) := by
  intro parts
  induction parts with
  | nil => intro cp cs _ _; rfl
  | cons part rest ih =>
    intro cp cs hd hnf
    have hnd : (namesOf cs).Nodup := distinct_nodup_names cs hd
    have hndS : (namesOf (sortNodeL cs)).Nodup := nodup_names_sortNodeL hd
    cases hf : findNamed part cs with
    | some c =>
      have hm := findNamed_mem hf
      have hany : anyName part cs = true := anyName_of_findNamed hf
      simp only [insertInto, cinsertInto, hf]
      rw [anyName_sortNodeL, hany, if_pos rfl]
      rw [replaceFirst_eq_map hnd, updFirstBy_eq_map hndS]
      have hkey : ∀ y, ((fun x => if x.name = part then
          (⟨x.name, x.path, x.type,
            cinsertInto rest (mkChildPath cp part) x.children⟩ : FileNode) else x) y).name = y.name ∧
          ((fun x => if x.name = part then
          (⟨x.name, x.path, x.type,
            cinsertInto rest (mkChildPath cp part) x.children⟩ : FileNode) else x) y).type = y.type := by
        intro y
        by_cases hy : y.name = part <;> simp [hy]
      rw [sortNodeL, sortNodeL,
        ← map_sortChildren_mem _ (sortDeep cs) (fun y _ => hkey y)]
      rw [sortDeep_eq_map, sortDeep_eq_map, List.map_map, List.map_map]
      refine congrArg sortChildren (List.map_congr_left ?_)
      intro x hx
      by_cases hxn : x.name = part
      · have hxc : x = c := findNamed_unique hf hnd x hx hxn
        subst hxc
        cases hct : x.type with
        | directory =>
          have hih := ih (mkChildPath cp part) x.children
            (distinct_child hd hx) (noFileDescend_child hf hnf)
          rw [sortNodeL, sortNodeL] at hih
          simp [sortDeepElem, hct, hxn, hih]
        | file =>
          cases rest with
          | nil => simp [sortDeepElem, hct, hxn, insertInto, cinsertInto]
          | cons r rs =>
            have h1 := hnf 1 (by omega) (by simp)
            rw [show (part :: r :: rs).take 1 = [part] from rfl] at h1
            simp [hasFileAt, hf, hct] at h1
      · simp only [Function.comp_apply, if_neg hxn]
        rw [if_neg (by rw [sortDeepElem_name]; exact hxn)]
    | none =>
      have hany : anyName part cs = false := findNamed_none_iff.mp hf
      simp only [insertInto, cinsertInto, hf]
      rw [anyName_sortNodeL, hany,
        if_neg (show ¬((false : Bool) = true) from by simp)]
      rw [sortNodeL, sortDeep_eq_map, List.map_append, List.map_cons, List.map_nil]
      rw [sortChildren_append_single _ _ ?_]
      · rw [show sortChildren (List.map sortDeepElem cs) = sortNodeL cs by
          rw [sortNodeL, sortDeep_eq_map]]
        refine congrArg (fun z => sortedInsert z (sortNodeL cs)) ?_
        cases rest with
        | nil => rfl
        | cons r rs =>
          have hih := ih (mkChildPath cp part) []
            distinctNamesB_nil (noFileDescend_nil _)
          rw [sortNodeL_nil] at hih
          simp only [sortDeepElem, List.isEmpty_cons, if_false]
          norm_num
          rw [← hih, sortNodeL]
      · intro y hy
        rcases List.mem_map.mp hy with ⟨z, hz, rfl⟩
        rw [sortDeepElem_name, sortDeepElem_name]
        intro hcontra
        have : anyName part cs = true := by
          simp only [anyName, List.any_eq_true]
          exact ⟨z, hz, by simp [hcontra.2]⟩
        rw [this] at hany
        exact Bool.noConfusion hany

/-! ### Commutation of canonical insertions for incomparable paths -/

/-- Segment-list prefix test. -/
def segPreB : List String → List String → Bool
  | [], _ => true
  | _ :: _, [] => false
  | a :: as, b :: bs => a = b && segPreB as bs

theorem segPreB_nil_left (q : List String) : segPreB [] q = true := by
  cases q <;> rfl

theorem updFirstBy_updFirstBy {part : String} (g h : FileNode → FileNode)
    (hh : ∀ c, (h c).name = c.name) :
    ∀ cs, updFirstBy part g (updFirstBy part h cs) =
      updFirstBy part (fun c => g (h c)) cs := by
  intro cs
  induction cs with
  | nil => rfl
  | cons c cs ih =>
    by_cases hc : c.name = part
    · have hc' : (h c).name = part := by rw [hh c]; exact hc
      simp [updFirstBy, if_pos hc, if_pos hc']
    · simp [updFirstBy, if_neg hc, ih]

theorem anyName_cinsert_cons_other {nm a : String} (hne : ¬(nm = a))
    (rest : List String) (cp : String) (cs : List FileNode) :
    anyName nm (cinsertInto (a :: rest) cp cs) = anyName nm cs := by
  simp only [cinsertInto]
  by_cases h : anyName a cs = true
  · rw [if_pos h]
    refine anyName_updFirstBy nm a _ ?_ cs
    intro c
    rfl
  · rw [if_neg h, anyName_sortedInsert]
    have hdec : (decide ((⟨a, mkChildPath cp a,
        if rest.isEmpty then NodeType.file else NodeType.directory,
        cinsertInto rest (mkChildPath cp a) []⟩ : FileNode).name = nm) : Bool) = false := by
      simp only [decide_eq_false_iff_not]
      exact fun hh => hne hh.symm
    rw [hdec, Bool.false_or]

/-- The node update performed when the descent finds an existing child. -/
def descend (rest : List String) (cp : String) (c : FileNode) : FileNode :=
  ⟨c.name, c.path, c.type, cinsertInto rest cp c.children⟩

theorem cinsert_found {a : String} {cs : List FileNode} (rest : List String)
    (cp : String) (hany : anyName a cs = true) :
    cinsertInto (a :: rest) cp cs =
      updFirstBy a (descend rest (mkChildPath cp a)) cs := by
  simp only [cinsertInto]
  rw [if_pos hany]
  rfl

theorem cinsert_fresh {a : String} {cs : List FileNode} (rest : List String)
    (cp : String) (hany : anyName a cs = false) :
    cinsertInto (a :: rest) cp cs =
      sortedInsert (⟨a, mkChildPath cp a,
        if rest.isEmpty then NodeType.file else NodeType.directory,
        cinsertInto rest (mkChildPath cp a) []⟩ : FileNode) cs := by
  simp only [cinsertInto]
  rw [if_neg (show ¬(anyName a cs = true) by rw [hany]; exact fun hh => Bool.noConfusion hh)]

theorem cinsert_comm :
    ∀ (p q : List String) (cp : String) (cs : List FileNode),
      segPreB p q = false → segPreB q p = false →
      cinsertInto p cp (cinsertInto q cp cs) =
        cinsertInto q cp (cinsertInto p cp cs) := by
  intro p
  induction p with
  | nil =>
    intro q cp cs hpq _
    rw [segPreB_nil_left] at hpq
    exact Bool.noConfusion hpq
  | cons a p' ih =>
    intro q cp cs hpq hqp
    cases q with
    | nil =>
      rw [segPreB_nil_left] at hqp
      exact Bool.noConfusion hqp
    | cons b q' =>
      by_cases hab : a = b
      · subst hab
        simp only [segPreB, decide_eq_true_eq, Bool.and_eq_false_iff] at hpq hqp
        have hpq' : segPreB p' q' = false := by
          rcases hpq with h | h
          · simp at h
          · exact h
        have hqp' : segPreB q' p' = false := by
          rcases hqp with h | h
          · simp at h
          · exact h
        have hp' : p' ≠ [] := by
          intro hh
          rw [hh, segPreB_nil_left] at hpq'
          exact Bool.noConfusion hpq'
        have hq' : q' ≠ [] := by
          intro hh
          rw [hh, segPreB_nil_left] at hqp'
          exact Bool.noConfusion hqp'
        by_cases hany : anyName a cs = true
        · rw [cinsert_found q' cp hany, cinsert_found p' cp hany]
          have hu1 : anyName a (updFirstBy a
              (descend q' (mkChildPath cp a)) cs) = true :=
            (anyName_updFirstBy a a (descend q' (mkChildPath cp a))
              (fun _ => rfl) cs).trans hany
          have hu2 : anyName a (updFirstBy a
              (descend p' (mkChildPath cp a)) cs) = true :=
            (anyName_updFirstBy a a (descend p' (mkChildPath cp a))
              (fun _ => rfl) cs).trans hany
          rw [cinsert_found p' cp hu1, cinsert_found q' cp hu2]
          rw [updFirstBy_updFirstBy (descend p' (mkChildPath cp a))
              (descend q' (mkChildPath cp a)) (fun _ => rfl) cs,
            updFirstBy_updFirstBy (descend q' (mkChildPath cp a))
              (descend p' (mkChildPath cp a)) (fun _ => rfl) cs]
          refine congrArg (fun g => updFirstBy a g cs) (funext fun c => ?_)
          have hch := ih q' (mkChildPath cp a) c.children hpq' hqp'
          show (⟨c.name, c.path, c.type, cinsertInto p' (mkChildPath cp a)
              (cinsertInto q' (mkChildPath cp a) c.children)⟩ : FileNode) =
            ⟨c.name, c.path, c.type, cinsertInto q' (mkChildPath cp a)
              (cinsertInto p' (mkChildPath cp a) c.children)⟩
          rw [hch]
        · have hf0 : anyName a cs = false := by
            cases h : anyName a cs
            · rfl
            · exact absurd h hany
          have hpe : p'.isEmpty = false := by
            cases p' with
            | nil => exact absurd rfl hp'
            | cons _ _ => rfl
          have hqe : q'.isEmpty = false := by
            cases q' with
            | nil => exact absurd rfl hq'
            | cons _ _ => rfl
          rw [cinsert_fresh q' cp hf0, cinsert_fresh p' cp hf0, hpe, hqe]
          have h2q : anyName a (sortedInsert (⟨a, mkChildPath cp a,
              if false = true then NodeType.file else NodeType.directory,
              cinsertInto q' (mkChildPath cp a) []⟩ : FileNode) cs) = true := by
            rw [anyName_sortedInsert]
            simp
          have h2p : anyName a (sortedInsert (⟨a, mkChildPath cp a,
              if false = true then NodeType.file else NodeType.directory,
              cinsertInto p' (mkChildPath cp a) []⟩ : FileNode) cs) = true := by
            rw [anyName_sortedInsert]
            simp
          rw [cinsert_found p' cp h2q, cinsert_found q' cp h2p]
          rw [@updFirstBy_sortedInsert_self a (descend p' (mkChildPath cp a))
              (⟨a, mkChildPath cp a,
                if false = true then NodeType.file else NodeType.directory,
                cinsertInto q' (mkChildPath cp a) []⟩ : FileNode)
              rfl (fun _ => ⟨rfl, rfl⟩) cs hf0,
            @updFirstBy_sortedInsert_self a (descend q' (mkChildPath cp a))
              (⟨a, mkChildPath cp a,
                if false = true then NodeType.file else NodeType.directory,
                cinsertInto p' (mkChildPath cp a) []⟩ : FileNode)
              rfl (fun _ => ⟨rfl, rfl⟩) cs hf0]
          refine congrArg (fun n => sortedInsert n cs) ?_
          have hch := ih q' (mkChildPath cp a) [] hpq' hqp'
          show (⟨a, mkChildPath cp a,
              if false = true then NodeType.file else NodeType.directory,
              cinsertInto p' (mkChildPath cp a)
                (cinsertInto q' (mkChildPath cp a) [])⟩ : FileNode) =
            ⟨a, mkChildPath cp a,
              if false = true then NodeType.file else NodeType.directory,
              cinsertInto q' (mkChildPath cp a)
                (cinsertInto p' (mkChildPath cp a) [])⟩
          rw [hch]
      · by_cases hA : anyName a cs = true
        · by_cases hB : anyName b cs = true
          · rw [cinsert_found q' cp hB, cinsert_found p' cp hA]
            have hA' : anyName a (updFirstBy b
                (descend q' (mkChildPath cp b)) cs) = true :=
              (anyName_updFirstBy a b (descend q' (mkChildPath cp b))
                (fun _ => rfl) cs).trans hA
            have hB' : anyName b (updFirstBy a
                (descend p' (mkChildPath cp a)) cs) = true :=
              (anyName_updFirstBy b a (descend p' (mkChildPath cp a))
                (fun _ => rfl) cs).trans hB
            rw [cinsert_found p' cp hA', cinsert_found q' cp hB']
            exact updFirstBy_comm hab (descend p' (mkChildPath cp a))
              (descend q' (mkChildPath cp b)) (fun _ => rfl) (fun _ => rfl) cs
          · have hBf : anyName b cs = false := by
              cases h : anyName b cs
              · rfl
              · exact absurd h hB
            rw [cinsert_fresh q' cp hBf, cinsert_found p' cp hA]
            have hA2 : anyName a (sortedInsert (⟨b, mkChildPath cp b,
                if q'.isEmpty then NodeType.file else NodeType.directory,
                cinsertInto q' (mkChildPath cp b) []⟩ : FileNode) cs) = true := by
              rw [anyName_sortedInsert, hA]
              simp
            have hB2 : anyName b (updFirstBy a
                (descend p' (mkChildPath cp a)) cs) = false :=
              (anyName_updFirstBy b a (descend p' (mkChildPath cp a))
                (fun _ => rfl) cs).trans hBf
            rw [cinsert_found p' cp hA2, cinsert_fresh q' cp hB2]
            exact @updFirstBy_sortedInsert_other a (descend p' (mkChildPath cp a))
              (⟨b, mkChildPath cp b,
                if q'.isEmpty then NodeType.file else NodeType.directory,
                cinsertInto q' (mkChildPath cp b) []⟩ : FileNode)
              (fun hh => hab hh.symm) (fun _ => ⟨rfl, rfl⟩) cs
        · have hAf : anyName a cs = false := by
            cases h : anyName a cs
            · rfl
            · exact absurd h hA
          by_cases hB : anyName b cs = true
          · rw [cinsert_found q' cp hB, cinsert_fresh p' cp hAf]
            have hB2 : anyName b (sortedInsert (⟨a, mkChildPath cp a,
                if p'.isEmpty then NodeType.file else NodeType.directory,
                cinsertInto p' (mkChildPath cp a) []⟩ : FileNode) cs) = true := by
              rw [anyName_sortedInsert, hB]
              simp
            have hA2 : anyName a (updFirstBy b
                (descend q' (mkChildPath cp b)) cs) = false :=
              (anyName_updFirstBy a b (descend q' (mkChildPath cp b))
                (fun _ => rfl) cs).trans hAf
            rw [cinsert_fresh p' cp hA2, cinsert_found q' cp hB2]
            exact (@updFirstBy_sortedInsert_other b (descend q' (mkChildPath cp b))
              (⟨a, mkChildPath cp a,
                if p'.isEmpty then NodeType.file else NodeType.directory,
                cinsertInto p' (mkChildPath cp a) []⟩ : FileNode)
              (fun hh => hab hh) (fun _ => ⟨rfl, rfl⟩) cs).symm
          · have hBf : anyName b cs = false := by
              cases h : anyName b cs
              · rfl
              · exact absurd h hB
            rw [cinsert_fresh q' cp hBf, cinsert_fresh p' cp hAf]
            have hA2 : anyName a (sortedInsert (⟨b, mkChildPath cp b,
                if q'.isEmpty then NodeType.file else NodeType.directory,
                cinsertInto q' (mkChildPath cp b) []⟩ : FileNode) cs) = false := by
              rw [anyName_sortedInsert, hAf]
              simp
              exact fun hh => hab hh.symm
            have hB2 : anyName b (sortedInsert (⟨a, mkChildPath cp a,
                if p'.isEmpty then NodeType.file else NodeType.directory,
                cinsertInto p' (mkChildPath cp a) []⟩ : FileNode) cs) = false := by
              rw [anyName_sortedInsert, hBf]
              simp
              exact fun hh => hab hh
            rw [cinsert_fresh p' cp hA2, cinsert_fresh q' cp hB2]
            exact sortedInsert_comm
              (show ¬((⟨a, mkChildPath cp a,
                if p'.isEmpty then NodeType.file else NodeType.directory,
                cinsertInto p' (mkChildPath cp a) []⟩ : FileNode).type =
                  (⟨b, mkChildPath cp b,
                if q'.isEmpty then NodeType.file else NodeType.directory,
                cinsertInto q' (mkChildPath cp b) []⟩ : FileNode).type ∧
                (⟨a, mkChildPath cp a,
                if p'.isEmpty then NodeType.file else NodeType.directory,
                cinsertInto p' (mkChildPath cp a) []⟩ : FileNode).name =
                  (⟨b, mkChildPath cp b,
                if q'.isEmpty then NodeType.file else NodeType.directory,
                cinsertInto q' (mkChildPath cp b) []⟩ : FileNode).name)
                from fun hh => hab hh.2) cs

/-! ### Order-independence of the canonical fold -/

theorem segPreB_take : ∀ (l : List String) (k : Nat),
    segPreB (l.take k) l = true := by
  intro l
  induction l with
  | nil => intro k; rw [List.take_nil]; rfl
  | cons a as ih =>
    intro k
    cases k with
    | zero => rfl
    | succ k =>
      rw [List.take_succ_cons]
      simp [segPreB, ih]

theorem foldInsert_eq_cfold : ∀ (l : List String) (cs : List FileNode),
    distinctNamesB cs = true →
    List.Pairwise (fun p q => segPreB (splitSegs p) (splitSegs q) = false) l →
    (∀ q, hasFileAt cs q = true → ∀ p ∈ l, segPreB q (splitSegs p) = false) →
    sortNodeL (l.foldl (fun acc pth => insertInto (splitSegs pth) "" acc) cs) =
      l.foldl (fun acc pth => cinsertInto (splitSegs pth) "" acc) (sortNodeL cs) := by
  intro l
  induction l with
  | nil => intro cs _ _ _; rfl
  | cons p1 rest ih =>
    intro cs hd hpw hfl
    simp only [List.foldl_cons]
    have hnfd : NoFileDescend cs (splitSegs p1) := by
      intro k _ _
      cases hh : hasFileAt cs ((splitSegs p1).take k)
      · rfl
      · have hcontra := hfl _ hh p1 (List.mem_cons_self _ _)
        rw [segPreB_take] at hcontra
        exact Bool.noConfusion hcontra
    have hfl' : ∀ q, hasFileAt (insertInto (splitSegs p1) "" cs) q = true →
        ∀ p ∈ rest, segPreB q (splitSegs p) = false := by
      intro q hq p hp
      rcases hasFileAt_insertInto _ _ _ _ hq with h | h
      · exact hfl q h p (List.mem_cons_of_mem _ hp)
      · rw [h]
        exact (List.pairwise_cons.mp hpw).1 p hp
    rw [ih (insertInto (splitSegs p1) "" cs)
        (distinct_insertInto _ _ _ hd) (List.pairwise_cons.mp hpw).2 hfl',
      sortNodeL_insertInto (splitSegs p1) "" cs hd hnfd]

theorem cbuild_perm {l1 l2 : List String} (hperm : l1.Perm l2)
    (hpw : List.Pairwise (fun p q =>
      segPreB (splitSegs p) (splitSegs q) = false ∧
      segPreB (splitSegs q) (splitSegs p) = false) l1) :
    cbuildChildren l1 = cbuildChildren l2 := by
  have hsymm : Symmetric (fun p q : String =>
      segPreB (splitSegs p) (splitSegs q) = false ∧
      segPreB (splitSegs q) (splitSegs p) = false) :=
    fun p q h => ⟨h.2, h.1⟩
  refine hperm.foldl_eq' ?_ []
  intro x hx y hy z
  by_cases hxy : x = y
  · rw [hxy]
  · have hR := hpw.forall hsymm hx hy hxy
    exact cinsert_comm (splitSegs y) (splitSegs x) "" z hR.2 hR.1

/-- **C5** (amended).  `buildFileTree` is permutation-invariant on path
lists whose slash-segment sequences are pairwise prefix-incomparable
(no path's segment list is a prefix — proper or equal — of another's):
for two such lists that are permutations of each other it returns
structurally identical trees, with the same names, paths, node kinds and
child order at every level.  The unrestricted claim fails when one path
is a segment-prefix of another, see the counterexample. -/
theorem c5_build_perm (l1 l2 : List String) (hperm : l1.Perm l2)
    (hpw : List.Pairwise (fun p q =>
      segPreB (splitSegs p) (splitSegs q) = false ∧
      segPreB (splitSegs q) (splitSegs p) = false) l1) :
    buildFileTree l1 = buildFileTree l2 := by
  have hsymm : Symmetric (fun p q : String =>
      segPreB (splitSegs p) (splitSegs q) = false ∧
      segPreB (splitSegs q) (splitSegs p) = false) :=
    fun p q h => ⟨h.2, h.1⟩
  have hpw2 : List.Pairwise (fun p q =>
      segPreB (splitSegs p) (splitSegs q) = false ∧
      segPreB (splitSegs q) (splitSegs p) = false) l2 :=
    (hperm.pairwise_iff (fun hxy => hsymm hxy)).mp hpw
  have hfl0 : ∀ (l : List String) (q : List String),
      hasFileAt ([] : List FileNode) q = true →
      ∀ p ∈ l, segPreB q (splitSegs p) = false := by
    intro l q hq
    rw [hasFileAt_nil_left] at hq
    exact Bool.noConfusion hq
  have h1 := foldInsert_eq_cfold l1 [] distinctNamesB_nil
    (hpw.imp (fun h => h.1)) (hfl0 l1)
  have h2 := foldInsert_eq_cfold l2 [] distinctNamesB_nil
    (hpw2.imp (fun h => h.1)) (hfl0 l2)
  rw [sortNodeL_nil] at h1 h2
  refine congrArg (fun cs => (⟨"<root>", ".", NodeType.directory, cs⟩ : FileNode)) ?_
  show sortNodeL (buildTreeChildren l1) = sortNodeL (buildTreeChildren l2)
  exact h1.trans ((cbuild_perm hperm hpw).trans h2.symm)

/-- Closed instance of the amended order-independence: the two-element
list and its swap build the same tree. -/
theorem c5_build_perm_witness :
    (["b", "a/c"] : List String).Perm ["a/c", "b"] ∧
    buildFileTree ["b", "a/c"] = buildFileTree ["a/c", "b"] :=
  ⟨List.Perm.swap "a/c" "b" [],
   c5_build_perm ["b", "a/c"] ["a/c", "b"]
     (List.Perm.swap "a/c" "b" []) (by decide)⟩

/-- The unrestricted order-independence claim is false: `["a", "a/b"]`
and its permutation `["a/b", "a"]` build different trees — the node `a`
is a file (with a child grafted under it) in the first and a directory
in the second. -/
theorem c5_counterexample :
    (["a", "a/b"] : List String).Perm ["a/b", "a"] ∧
    ¬(buildFileTree ["a", "a/b"] = buildFileTree ["a/b", "a"]) := by
  refine ⟨List.Perm.swap "a/b" "a" [], ?_⟩
  intro h
  have e1 : buildTreeChildren ["a", "a/b"] =
      [⟨"a", "a", NodeType.file, [⟨"b", "a/b", NodeType.file, []⟩]⟩] := by rfl
  have e2 : buildTreeChildren ["a/b", "a"] =
      [⟨"a", "a", NodeType.directory, [⟨"b", "a/b", NodeType.file, []⟩]⟩] := by rfl
  have t1 : buildFileTree ["a", "a/b"] =
      ⟨"<root>", ".", NodeType.directory,
       [⟨"a", "a", NodeType.file, [⟨"b", "a/b", NodeType.file, []⟩]⟩]⟩ := by
    show (⟨"<root>", ".", NodeType.directory,
      sortChildren (sortDeep (buildTreeChildren ["a", "a/b"]))⟩ : FileNode) = _
    rw [e1, sortDeep_cons, sortDeep_nil]
    rfl
  have t2 : buildFileTree ["a/b", "a"] =
      ⟨"<root>", ".", NodeType.directory,
       [⟨"a", "a", NodeType.directory, [⟨"b", "a/b", NodeType.file, []⟩]⟩]⟩ := by
    show (⟨"<root>", ".", NodeType.directory,
      sortChildren (sortDeep (buildTreeChildren ["a/b", "a"]))⟩ : FileNode) = _
    rw [e2, sortDeep_cons, sortDeep_nil]
    simp only [sortDeep_cons, sortDeep_nil]
    rfl
  rw [t1, t2] at h
  simp at h
